import Mathlib

/-!
Verification of the basketball video-analysis tracking pipeline:
shallow embedding of the trackers (`BallTracker`, `PlayerTracker`),
the stub cache utilities (`save_stub` / `read_stub`) and the team
assigner, together with theorems settling the specification claims.

Conventions of the embedding:
* Bounding boxes are quadruples of rationals `(x1, y1, x2, y2)`;
  the Python code stores them as float lists `[x1, y1, x2, y2]`.
* A frame's ball entry `{1: {'bbox': b}}` is `some b`, the empty dict
  is `none`.
* `numpy` float comparisons `dist > thr` are embedded exactly as
  `dist^2 > thr^2` (both sides are nonnegative, squaring is monotone).
* The file system touched by `os.path` / `pickle` is a finite map from
  path strings to blobs plus a set of directories; a blob is either a
  well-pickled value or a corrupt record.
* Python exceptions are `Except PyErr`.
-/

set_option autoImplicit false

namespace Basketball

/-- A bounding box `(x1, y1, x2, y2)` in pixel coordinates. -/
abbrev BBox := ℚ × ℚ × ℚ × ℚ

/-- One frame's ball record: `some b` for `{1: {'bbox': b}}`, `none` for `{}`. -/
abbrev BallEntry := Option BBox

/-- A frame is opaque to the tracking core; only its identity matters. -/
abbrev Frame := ℕ

/-- Python exceptions that the embedded code can raise. -/
inductive PyErr where
  /-- `TypeError`, raised e.g. by `os.path.dirname(None)`. -/
  | typeError : PyErr
  /-- `ValueError`, raised e.g. by `pd.DataFrame` on a column-count mismatch. -/
  | valueError : PyErr
  /-- An `UnpicklingError` (or similar) from `pickle.load` on a corrupt record. -/
  | unpickleError : PyErr
deriving DecidableEq

/-- A durable blob at a path: either a well-pickled value or a corrupt record. -/
inductive Blob (α : Type) where
  | good : α → Blob α
  | corrupt : Blob α
deriving DecidableEq

/-- The file system seen by `os.path.exists` / `os.makedirs` / `open`. -/
structure FS (α : Type) where
  files : List (String × Blob α)
  dirs : List String
deriving DecidableEq

/-- Content of the file at `p`, if any (`os.path.exists` on files / `open`). -/
def FS.lookupFile {α : Type} (fs : FS α) (p : String) : Option (Blob α) :=
  (fs.files.find? (fun kv => kv.1 = p)).map (fun kv => kv.2)

/-- `os.path.exists`: true for an existing file or directory. -/
def FS.pathExists {α : Type} (fs : FS α) (p : String) : Bool :=
  (fs.files.any (fun kv => kv.1 = p)) || (fs.dirs.contains p)

/-- Write (create or overwrite) the file at `p` with a well-pickled value. -/
def FS.writeFile {α : Type} (fs : FS α) (p : String) (v : α) : FS α :=
  ⟨(p, Blob.good v) :: fs.files, fs.dirs⟩

/-- Record a directory as existing (`os.makedirs`). -/
def FS.mkdir {α : Type} (fs : FS α) (d : String) : FS α :=
  ⟨fs.files, d :: fs.dirs⟩

/-- `os.path.dirname`: everything before the final path separator. -/
def dirname (p : String) : String :=
  String.intercalate "/" ((p.splitOn "/").dropLast)

/-- Embedding of `save_stub` (src/utils/stubs_utils.py, lines 12-41).
The Python code evaluates `os.path.dirname(stub_path)` before its
`stub_path is not None` guard, so an unset path raises `TypeError`. -/
def save_stub {α : Type} (stub_path : Option String) (obj : α) (fs : FS α) :
    Except PyErr (FS α) :=
  match stub_path with
  | none => Except.error PyErr.typeError
  | some p =>
    let fs1 := if fs.pathExists (dirname p) then fs else fs.mkdir (dirname p)
    Except.ok (fs1.writeFile p obj)

/-- Embedding of `read_stub` (src/utils/stubs_utils.py, lines 43-69):
returns `none` when disabled, when the path is unset or when no record
exists; otherwise unpickles, and a corrupt record raises. -/
def read_stub {α : Type} (read_from_stub : Bool) (stub_path : Option String)
    (fs : FS α) : Except PyErr (Option α) :=
  match read_from_stub, stub_path with
  | true, some p =>
    match fs.lookupFile p with
    | some (Blob.good v) => Except.ok (some v)
    | some Blob.corrupt => Except.error PyErr.unpickleError
    | none => Except.ok none
  | _, _ => Except.ok none

/-! ## Outlier rejection (`BallTracker.remove_wrong_detections`) -/

/-- Squared Euclidean distance between the top-left corners of two boxes.
The source compares `np.linalg.norm(last[:2] - cur[:2])` against a
nonnegative threshold `t`; that comparison holds exactly when this squared
distance exceeds `t * t`, which is how the embedding states it. -/
def distTL2 (a b : BBox) : ℚ :=
  (a.1 - b.1) * (a.1 - b.1) + (a.2.1 - b.2.1) * (a.2.1 - b.2.1)

/-- Squared adaptive threshold `(maximum_allowed_distance * frame_gap)^2`
with `maximum_allowed_distance = 25`. -/
def thr2 (gap : ℕ) : ℚ :=
  (25 * (gap : ℚ)) * (25 * (gap : ℚ))

/-- Loop body of `remove_wrong_detections` (src/trackers/ball_tracker.py,
lines 134-160): iterate `i` upward over the list, reading the current box
and the box recorded at `last_good_frame_index` from the (in-place
updated) list; discarding writes `none` at `i`. The first branch is the
loop running off the end of the list; the final catch-all (the recorded
last good frame holding no box) is unreachable from `remove_wrong_detections`,
as proved by refinement below. -/
def rwdGo (bp : List BallEntry) (i : ℕ) (last_good_frame_index : ℤ) :
    List BallEntry :=
  match h : bp[i]? with
  | none => bp
  | some none => rwdGo bp (i + 1) last_good_frame_index
  | some (some current_box) =>
    if last_good_frame_index = -1 then
      rwdGo bp (i + 1) (i : ℤ)
    else
      match bp[last_good_frame_index.toNat]? with
      | some (some last_good_box) =>
        if distTL2 last_good_box current_box >
            thr2 (i - last_good_frame_index.toNat) then
          rwdGo (bp.set i none) (i + 1) last_good_frame_index
        else
          rwdGo bp (i + 1) (i : ℤ)
      | _ => bp
termination_by bp.length - i
decreasing_by
  all_goals
    have hi : i < bp.length := by
      rcases Nat.lt_or_ge i bp.length with h1 | h1
      · exact h1
      · rw [List.getElem?_eq_none h1] at h; cases h
    try simp only [List.length_set]
    omega

/-- Embedding of `BallTracker.remove_wrong_detections`
(src/trackers/ball_tracker.py, lines 117-162). -/
def remove_wrong_detections (ball_positions : List BallEntry) : List BallEntry :=
  rwdGo ball_positions 0 (-1)

/-- Reference form of the outlier-rejection pass, written from the spec's
words: a single forward pass over the frames carrying `last_good_index`
together with the box observed there in the ORIGINAL sequence; a frame
with no box is skipped, the first frame with a box becomes the reference,
and a later box is discarded exactly when the top-left-corner distance
exceeds `25 * (i - last_good_index)`. -/
def removeWrongSpecGo : List BallEntry → ℕ → Option (ℕ × BBox) → List BallEntry
  | [], _, _ => []
  | none :: rest, i, lg => none :: removeWrongSpecGo rest (i + 1) lg
  | some cur :: rest, i, none =>
    some cur :: removeWrongSpecGo rest (i + 1) (some (i, cur))
  | some cur :: rest, i, some (j, lb) =>
    if distTL2 lb cur > thr2 (i - j) then
      none :: removeWrongSpecGo rest (i + 1) (some (j, lb))
    else
      some cur :: removeWrongSpecGo rest (i + 1) (some (i, cur))

/-- Top-level reference form of outlier rejection (spec wording). -/
def removeWrongSpec (bp : List BallEntry) : List BallEntry :=
  removeWrongSpecGo bp 0 none

/-- The `last_good_frame_index` integer encoding of the spec state:
`-1` for "no good frame yet", otherwise the index. -/
def encodeLG : Option (ℕ × BBox) → ℤ
  | none => -1
  | some jb => (jb.1 : ℤ)

theorem getElem?_append_middle {α : Type} (pre : List α) (e : α) (rest : List α) :
    (pre ++ e :: rest)[pre.length]? = some e := by
  induction pre with
  | nil => simp
  | cons a pre ih => simpa using ih

theorem getElem?_append_lt {α : Type} :
    ∀ (pre suf : List α) (j : ℕ), j < pre.length → (pre ++ suf)[j]? = pre[j]? := by
  intro pre
  induction pre with
  | nil => intro suf j h; exact absurd h (by simp)
  | cons a pre ih =>
    intro suf j h
    cases j with
    | zero => simp
    | succ j => simpa using ih suf j (Nat.lt_of_succ_lt_succ h)

theorem set_append_middle {α : Type} (pre : List α) (e v : α) (rest : List α) :
    (pre ++ e :: rest).set pre.length v = pre ++ v :: rest := by
  induction pre with
  | nil => rfl
  | cons a pre ih => simp [ih]

theorem rwdGo_out (bp : List BallEntry) (i : ℕ) (lg : ℤ)
    (h : bp[i]? = none) : rwdGo bp i lg = bp := by
  rw [rwdGo.eq_def, h]

theorem rwdGo_skip (bp : List BallEntry) (i : ℕ) (lg : ℤ)
    (h : bp[i]? = some none) : rwdGo bp i lg = rwdGo bp (i + 1) lg := by
  rw [rwdGo.eq_def, h]

theorem rwdGo_first (bp : List BallEntry) (i : ℕ) (cur : BBox)
    (h : bp[i]? = some (some cur)) :
    rwdGo bp i (-1) = rwdGo bp (i + 1) (i : ℤ) := by
  rw [rwdGo.eq_def, h]
  simp

theorem rwdGo_check (bp : List BallEntry) (i j : ℕ) (cur lb : BBox)
    (h : bp[i]? = some (some cur))
    (hlast : bp[(j : ℤ).toNat]? = some (some lb)) :
    rwdGo bp i (j : ℤ) =
      if distTL2 lb cur > thr2 (i - j) then
        rwdGo (bp.set i none) (i + 1) (j : ℤ)
      else
        rwdGo bp (i + 1) (i : ℤ) := by
  rw [rwdGo.eq_def, h]
  split
  next heq => exact absurd heq (by simp)
  next heq => simp at heq
  next cb heq =>
    obtain rfl : cur = cb := by
      injection heq with h1; injection h1
    rw [if_neg (show ¬((j : ℤ) = -1) by omega), hlast]
    simp

/-- Extending the processed prefix preserves the last-good-box invariant. -/
theorem invExtend (pre : List BallEntry) (x : BallEntry)
    (lg : Option (ℕ × BBox))
    (h : ∀ j lb, lg = some (j, lb) → j < pre.length ∧ pre[j]? = some (some lb)) :
    ∀ j lb, lg = some (j, lb) →
      j < (pre ++ [x]).length ∧ (pre ++ [x])[j]? = some (some lb) := by
  intro j lb hj
  rcases h j lb hj with ⟨h1, h2⟩
  refine ⟨by simp; omega, ?_⟩
  rw [getElem?_append_lt pre [x] j h1]
  exact h2

/-- A freshly accepted frame satisfies the last-good-box invariant. -/
theorem invSelf (pre : List BallEntry) (cur : BBox) :
    ∀ j lb, (some (pre.length, cur) : Option (ℕ × BBox)) = some (j, lb) →
      j < (pre ++ [some cur]).length ∧
        (pre ++ [some cur])[j]? = some (some lb) := by
  intro j lb hj
  simp only [Option.some.injEq, Prod.mk.injEq] at hj
  obtain ⟨rfl, rfl⟩ := hj
  exact ⟨by simp, getElem?_append_middle pre (some cur) []⟩

/-- Refinement of the in-place loop by the spec-level forward pass: the box
recorded for `last_good_frame_index` in the mutated list is the box of the
original sequence, so the two passes agree. -/
theorem rwdGo_eq_specGo :
    ∀ (suf pre : List BallEntry) (lg : Option (ℕ × BBox)),
      (∀ j lb, lg = some (j, lb) → j < pre.length ∧ pre[j]? = some (some lb)) →
      rwdGo (pre ++ suf) pre.length (encodeLG lg) =
        pre ++ removeWrongSpecGo suf pre.length lg := by
  intro suf
  induction suf with
  | nil =>
    intro pre lg hinv
    rw [rwdGo_out _ _ _ (by simp), removeWrongSpecGo]
  | cons e rest ih =>
    intro pre lg hinv
    cases e with
    | none =>
      rw [rwdGo_skip _ _ _ (getElem?_append_middle pre none rest)]
      simpa using ih (pre ++ [none]) lg (invExtend pre none lg hinv)
    | some cur =>
      cases lg with
      | none =>
        simp only [encodeLG]
        rw [rwdGo_first _ _ _ (getElem?_append_middle pre (some cur) rest)]
        simpa [encodeLG] using
          ih (pre ++ [some cur]) (some (pre.length, cur)) (invSelf pre cur)
      | some jb =>
        obtain ⟨j, lb⟩ := jb
        rcases hinv j lb rfl with ⟨hj, hlook⟩
        simp only [encodeLG]
        rw [rwdGo_check (pre ++ some cur :: rest) pre.length j cur lb
          (getElem?_append_middle pre (some cur) rest)
          (by
            rw [show ((j : ℤ)).toNat = j from rfl,
              getElem?_append_lt pre (some cur :: rest) j hj]
            exact hlook)]
        simp only [removeWrongSpecGo]
        by_cases hd : distTL2 lb cur > thr2 (pre.length - j)
        · rw [if_pos hd, if_pos hd,
            set_append_middle pre (some cur) none rest]
          simpa [encodeLG] using
            ih (pre ++ [none]) (some (j, lb))
              (invExtend pre none (some (j, lb)) (fun j' lb' hj' => by
                simp only [Option.some.injEq, Prod.mk.injEq] at hj'
                obtain ⟨rfl, rfl⟩ := hj'
                exact ⟨hj, hlook⟩))
        · rw [if_neg hd, if_neg hd]
          simpa [encodeLG] using
            ih (pre ++ [some cur]) (some (pre.length, cur)) (invSelf pre cur)

/-- The in-place pass of the source equals the spec-level forward pass. -/
theorem remove_wrong_eq_spec (l : List BallEntry) :
    remove_wrong_detections l = removeWrongSpec l := by
  have h := rwdGo_eq_specGo l [] none (by intro j lb hj; cases hj)
  simpa [remove_wrong_detections, removeWrongSpec, encodeLG] using h

theorem specGo_length :
    ∀ (l : List BallEntry) (i : ℕ) (lg : Option (ℕ × BBox)),
      (removeWrongSpecGo l i lg).length = l.length := by
  intro l
  induction l with
  | nil => intro i lg; rfl
  | cons e rest ih =>
    intro i lg
    cases e with
    | none => simp [removeWrongSpecGo, ih]
    | some cur =>
      cases lg with
      | none => simp [removeWrongSpecGo, ih]
      | some jb =>
        obtain ⟨j, lb⟩ := jb
        simp only [removeWrongSpecGo]
        split <;> simp [ih]

/-- Every output entry of the spec pass is the input entry or `none`. -/
theorem specGo_entry :
    ∀ (l : List BallEntry) (i : ℕ) (lg : Option (ℕ × BBox)) (k : ℕ),
      (removeWrongSpecGo l i lg)[k]? = l[k]? ∨
        (removeWrongSpecGo l i lg)[k]? = some none := by
  intro l
  induction l with
  | nil => intro i lg k; left; rfl
  | cons e rest ih =>
    intro i lg k
    cases e with
    | none =>
      cases k with
      | zero => left; simp [removeWrongSpecGo]
      | succ k => simpa [removeWrongSpecGo] using ih (i + 1) lg k
    | some cur =>
      cases lg with
      | none =>
        cases k with
        | zero => left; simp [removeWrongSpecGo]
        | succ k => simpa [removeWrongSpecGo] using ih (i + 1) (some (i, cur)) k
      | some jb =>
        obtain ⟨j, lb⟩ := jb
        simp only [removeWrongSpecGo]
        split
        · cases k with
          | zero => right; simp
          | succ k => simpa using ih (i + 1) (some (j, lb)) k
        · cases k with
          | zero => left; simp
          | succ k => simpa using ih (i + 1) (some (i, cur)) k

/-- Before any good reference exists, the first frame that has a box is
kept unchanged by the spec pass. -/
theorem specGo_first :
    ∀ (l : List BallEntry) (i k : ℕ) (b : BBox),
      l[k]? = some (some b) → (∀ m, m < k → l[m]? = some none) →
      (removeWrongSpecGo l i none)[k]? = some (some b) := by
  intro l
  induction l with
  | nil => intro i k b hk _; simp at hk
  | cons e rest ih =>
    intro i k b hk hprev
    cases k with
    | zero =>
      have he : e = some b := by simpa using hk
      subst he
      simp [removeWrongSpecGo]
    | succ k =>
      have h0 : e = none := by simpa using hprev 0 (Nat.succ_pos k)
      subst h0
      simp only [removeWrongSpecGo, List.getElem?_cons_succ]
      exact ih (i + 1) k b (by simpa using hk)
        (fun m hm => by simpa using hprev (m + 1) (Nat.succ_lt_succ hm))

/-- A box with top-left corner `(0, 0)`. -/
def b00 : BBox := (0, 0, 10, 10)

/-- A box with top-left corner `(1000, 1000)`. -/
def bFar : BBox := (1000, 1000, 1010, 1010)

/-- A trajectory holding `b00` at frame 0, then `n` empty frames, then
`bFar` at frame `n + 1` (a jump with frame gap `n + 1`). -/
def exGap (n : ℕ) : List BallEntry :=
  some b00 :: (List.replicate n none ++ [some bFar])

/-- C1: `remove_wrong_detections` is a single forward pass keeping
`last_good_index` (initially −1): boxless frames are skipped, the first
box becomes the reference, and a later box at frame `i` is discarded
exactly when the Euclidean distance between top-left corners exceeds
`25 × (i − last_good_index)` (in which case `last_good_index` stays put),
otherwise kept with `last_good_index := i`. Concretely, with boxes at
`(0,0)@t0, (0,0)@t1, (1000,1000)@t2` the jump is discarded at gap 1 and
gap 40 and accepted at gap 60 (threshold 1500 ≥ distance ≈ 1414). -/
theorem claim_C1_outlier_rejection :
    (∀ l : List BallEntry, remove_wrong_detections l = removeWrongSpec l) ∧
    remove_wrong_detections [some b00, some b00, some bFar] =
      [some b00, some b00, none] ∧
    (remove_wrong_detections (exGap 39))[40]? = some none ∧
    (remove_wrong_detections (exGap 59))[60]? = some (some bFar) := by
  refine ⟨remove_wrong_eq_spec, ?_, ?_, ?_⟩ <;> rw [remove_wrong_eq_spec] <;>
    norm_num [removeWrongSpec, removeWrongSpecGo, distTL2, thr2, b00, bFar,
      exGap, List.replicate]

/-- C10: on every input, `remove_wrong_detections` preserves the length
and rewrites each frame's entry either to exactly the input entry or to
the empty entry; entries of frames that were empty in the input, the
first non-empty frame, and every frame kept non-empty in the output are
left unchanged. -/
theorem claim_C10_frame_effect :
    ∀ (l : List BallEntry),
      (remove_wrong_detections l).length = l.length ∧
      (∀ (k : ℕ), (remove_wrong_detections l)[k]? = l[k]? ∨
        (remove_wrong_detections l)[k]? = some none) ∧
      (∀ (k : ℕ), l[k]? = some none →
        (remove_wrong_detections l)[k]? = some none) ∧
      (∀ (k : ℕ) (b : BBox), (remove_wrong_detections l)[k]? = some (some b) →
        l[k]? = some (some b)) ∧
      (∀ (k : ℕ) (b : BBox), l[k]? = some (some b) →
        (∀ m, m < k → l[m]? = some none) →
        (remove_wrong_detections l)[k]? = some (some b)) := by
  intro l
  rw [remove_wrong_eq_spec, removeWrongSpec]
  refine ⟨specGo_length l 0 none, fun k => specGo_entry l 0 none k, ?_, ?_,
    fun k b => specGo_first l 0 k b⟩
  · intro k hk
    rcases specGo_entry l 0 none k with h | h
    · rw [h]; exact hk
    · exact h
  · intro k b hk
    rcases specGo_entry l 0 none k with h | h
    · rw [← h]; exact hk
    · rw [h] at hk; simp at hk

/-- Witness for C10 at a concrete trajectory: the first non-empty frame of
`[∅, b00]` is kept unchanged. -/
theorem claim_C10_frame_effect_witness :
    (remove_wrong_detections [none, some b00])[1]? = some (some b00) :=
  (claim_C10_frame_effect [none, some b00]).2.2.2.2 1 b00 rfl
    (fun m hm => by
      have hm0 : m = 0 := by omega
      subst hm0
      rfl)

/-! ## Per-frame ball selection (`BallTracker.get_object_tracks`) -/

/-- One detection returned by the external detector for a frame, with the
class id already resolved to its name through `cls_names_inv`. -/
structure Det where
  bbox : BBox
  cls : String
  conf : ℚ
deriving DecidableEq

/-- Fold step of the per-frame ball choice (src/trackers/ball_tracker.py,
lines 92-106): replace the chosen box whenever the detection is of class
`Ball` and its confidence strictly exceeds the running maximum. -/
def chooseBallStep (acc : BallEntry × ℚ) (d : Det) : BallEntry × ℚ :=
  if d.cls = "Ball" ∧ acc.2 < d.conf then (some d.bbox, d.conf) else acc

/-- The ball entry produced for one frame from its detections; the running
maximum confidence starts at `0`. -/
def ballTrackFromDets (dets : List Det) : BallEntry :=
  (dets.foldl chooseBallStep (none, 0)).1

/-- Invariant of the selection fold: either no Ball detection beats the
running maximum and the accumulator survives, or the result is the first
Ball detection attaining the maximal confidence above it. -/
theorem chooseBall_fold :
    ∀ (l : List Det) (b : BallEntry) (m : ℚ),
      (l.foldl chooseBallStep (b, m) = (b, m) ∧
        ∀ d ∈ l, d.cls = "Ball" → d.conf ≤ m) ∨
      (∃ l1 d l2, l = l1 ++ d :: l2 ∧ d.cls = "Ball" ∧ m < d.conf ∧
        l.foldl chooseBallStep (b, m) = (some d.bbox, d.conf) ∧
        (∀ e ∈ l, e.cls = "Ball" → e.conf ≤ d.conf) ∧
        (∀ e ∈ l1, e.cls = "Ball" → e.conf < d.conf)) := by
  intro l
  induction l with
  | nil => intro b m; left; exact ⟨rfl, by simp⟩
  | cons d0 rest ih =>
    intro b m
    by_cases h0 : d0.cls = "Ball" ∧ m < d0.conf
    · have hfold : (d0 :: rest).foldl chooseBallStep (b, m) =
          rest.foldl chooseBallStep (some d0.bbox, d0.conf) := by
        simp [chooseBallStep, h0]
      rcases ih (some d0.bbox) d0.conf with ⟨hf, hall⟩ |
        ⟨l1, d, l2, hsplit, hball, hlt, hf, hall, hfirst⟩
      · right
        refine ⟨[], d0, rest, by simp, h0.1, h0.2, by rw [hfold, hf], ?_, by simp⟩
        intro e he hb
        rcases List.mem_cons.1 he with rfl | he'
        · exact le_refl _
        · exact hall e he' hb
      · right
        refine ⟨d0 :: l1, d, l2, by rw [hsplit]; rfl, hball,
          lt_trans h0.2 hlt, by rw [hfold, hf], ?_, ?_⟩
        · intro e he hb
          rcases List.mem_cons.1 he with rfl | he'
          · exact le_of_lt hlt
          · exact hall e he' hb
        · intro e he hb
          rcases List.mem_cons.1 he with rfl | he'
          · exact hlt
          · exact hfirst e he' hb
    · have hfold : (d0 :: rest).foldl chooseBallStep (b, m) =
          rest.foldl chooseBallStep (b, m) := by
        simp [chooseBallStep, h0]
      have hd0 : d0.cls = "Ball" → d0.conf ≤ m := fun hb =>
        le_of_not_lt (fun hlt' => h0 ⟨hb, hlt'⟩)
      rcases ih b m with ⟨hf, hall⟩ |
        ⟨l1, d, l2, hsplit, hball, hlt, hf, hall, hfirst⟩
      · left
        refine ⟨by rw [hfold, hf], ?_⟩
        intro e he hb
        rcases List.mem_cons.1 he with rfl | he'
        · exact hd0 hb
        · exact hall e he' hb
      · right
        refine ⟨d0 :: l1, d, l2, by rw [hsplit]; rfl, hball, hlt,
          by rw [hfold, hf], ?_, ?_⟩
        · intro e he hb
          rcases List.mem_cons.1 he with rfl | he'
          · exact le_of_lt (lt_of_le_of_lt (hd0 hb) hlt)
          · exact hall e he' hb
        · intro e he hb
          rcases List.mem_cons.1 he with rfl | he'
          · exact lt_of_le_of_lt (hd0 hb) hlt
          · exact hfirst e he' hb

/-- A Ball detection whose confidence is exactly `0`. -/
def detBallZero : Det := ⟨b00, "Ball", 0⟩

/-- C8 counterexample: a frame whose only detection is of class Ball (with
confidence 0, which the data model allows) yields an EMPTY entry, because
the source initialises `max_confidence = 0` and only replaces it on a
strict increase; the claim as stated demands that the maximal-confidence
ball detection be selected. -/
theorem claim_C8_counterexample :
    detBallZero.cls = "Ball" ∧ ballTrackFromDets [detBallZero] = none := by
  constructor
  · rfl
  · norm_num [ballTrackFromDets, chooseBallStep, detBallZero]

/-- C8 (amended): per frame the assigner keeps at most one detection:
the entry is empty exactly when no Ball detection has positive confidence;
otherwise the chosen box is that of the first-seen Ball detection of
maximal confidence (ties in favour of the first seen, non-Ball detections
ignored regardless of confidence). Among Ball detections of confidence
0.4 and 0.9 the latter's box is chosen, and a non-Ball detection of
confidence 0.99 does not displace a Ball detection of confidence 0.9. -/
theorem claim_C8_ball_selection :
    (∀ dets : List Det,
      (ballTrackFromDets dets = none ↔
        ∀ d ∈ dets, d.cls = "Ball" → d.conf ≤ 0) ∧
      (∀ bb : BBox, ballTrackFromDets dets = some bb →
        ∃ l1 d l2, dets = l1 ++ d :: l2 ∧ d.cls = "Ball" ∧ 0 < d.conf ∧
          d.bbox = bb ∧ (∀ e ∈ dets, e.cls = "Ball" → e.conf ≤ d.conf) ∧
          (∀ e ∈ l1, e.cls = "Ball" → e.conf < d.conf))) ∧
    ballTrackFromDets [⟨b00, "Ball", 2/5⟩, ⟨bFar, "Ball", 9/10⟩] = some bFar ∧
    ballTrackFromDets [⟨b00, "Player", 99/100⟩, ⟨bFar, "Ball", 9/10⟩] =
      some bFar := by
  refine ⟨?_, ?_, ?_⟩
  · intro dets
    constructor
    · constructor
      · intro hnone d hd hb
        rcases chooseBall_fold dets none 0 with ⟨hf, hall⟩ |
          ⟨l1, d', l2, _, _, _, hf, _, _⟩
        · exact hall d hd hb
        · unfold ballTrackFromDets at hnone
          rw [hf] at hnone
          simp at hnone
      · intro hall
        rcases chooseBall_fold dets none 0 with ⟨hf, _⟩ |
          ⟨l1, d', l2, hsplit, hball, hlt, hf, _, _⟩
        · unfold ballTrackFromDets
          rw [hf]
        · exfalso
          have hmem : d' ∈ dets := by
            rw [hsplit]
            exact List.mem_append_right _ (List.mem_cons_self _ _)
          exact absurd hlt (not_lt.2 (hall d' hmem hball))
    · intro bb hsome
      rcases chooseBall_fold dets none 0 with ⟨hf, _⟩ |
        ⟨l1, d', l2, hsplit, hball, hlt, hf, hall, hfirst⟩
      · unfold ballTrackFromDets at hsome
        rw [hf] at hsome
        simp at hsome
      · unfold ballTrackFromDets at hsome
        rw [hf] at hsome
        have hbb : d'.bbox = bb := by simpa using hsome
        exact ⟨l1, d', l2, hsplit, hball, hlt, hbb, hall, hfirst⟩
  · norm_num [ballTrackFromDets, chooseBallStep]
  · norm_num [ballTrackFromDets, chooseBallStep,
      eq_false (show ¬("Player" = "Ball") from by decide)]

/-- Witness for C8 at a concrete frame: a frame holding only a Player
detection produces an empty ball entry. -/
theorem claim_C8_ball_selection_witness :
    ballTrackFromDets [⟨b00, "Player", 1⟩] = none :=
  ((claim_C8_ball_selection.1 [⟨b00, "Player", 1⟩]).1).mpr (by
    intro d hd hb
    rcases List.mem_singleton.1 hd with rfl
    simp at hb)

/-! ## Batched detection and the two `get_object_tracks` pipelines -/

/-- One frame's raw detection set. -/
abbrev DetSet := List Det

/-- Embedding of `detect_frames` (identical in both trackers): call the
external detector `det` once per batch of 20 frames, concatenating the
per-frame results in order; the second component counts the external
calls made. -/
def detect_frames (det : List Frame → List DetSet) (frames : List Frame) :
    List DetSet × ℕ :=
  if h : frames = [] then ([], 0)
  else
    let rest := detect_frames det (frames.drop 20)
    (det (frames.take 20) ++ rest.1, rest.2 + 1)
termination_by frames.length
decreasing_by
  simp only [List.length_drop]
  have hpos : 0 < frames.length := List.length_pos.2 h
  omega

/-- When the external detector yields one detection set per input frame,
batching yields one detection set per frame overall. -/
theorem detect_frames_length (det : List Frame → List DetSet)
    (hdet : ∀ b, (det b).length = b.length) :
    ∀ frames : List Frame, (detect_frames det frames).1.length = frames.length := by
  suffices h : ∀ (n : ℕ) (frames : List Frame), frames.length ≤ n →
      (detect_frames det frames).1.length = frames.length by
    intro frames
    exact h frames.length frames (le_refl _)
  intro n
  induction n with
  | zero =>
    intro frames hle
    have hf : frames = [] := List.length_eq_zero.1 (Nat.le_zero.1 hle)
    subst hf
    rw [detect_frames]
    simp
  | succ n ih =>
    intro frames hle
    by_cases hf : frames = []
    · subst hf
      rw [detect_frames]
      simp
    · rw [detect_frames, dif_neg hf]
      have hpos : 0 < frames.length := List.length_pos.2 hf
      have hih := ih (frames.drop 20) (by simp only [List.length_drop]; omega)
      simp only [List.length_append, hdet, hih, List.length_take,
        List.length_drop]
      omega

/-- Cache-miss computation of `BallTracker.get_object_tracks`
(src/trackers/ball_tracker.py, lines 78-115): detect in batches, keep per
frame the highest-confidence Ball detection, save to the stub and return. -/
def ballCompute (det : List Frame → List DetSet) (frames : List Frame)
    (stub_path : Option String) (fs : FS (List BallEntry)) :
    Except PyErr (List BallEntry × ℕ × FS (List BallEntry)) :=
  let dres := detect_frames det frames
  let tracks := dres.1.map ballTrackFromDets
  match save_stub stub_path tracks fs with
  | Except.error e => Except.error e
  | Except.ok fs1 => Except.ok (tracks, dres.2, fs1)

/-- Embedding of `BallTracker.get_object_tracks`
(src/trackers/ball_tracker.py, lines 57-115). The second result component
counts external detector calls, the third is the file system after the
call (unchanged means no cache write). -/
def ball_get_object_tracks (det : List Frame → List DetSet)
    (frames : List Frame) (read_from_stub : Bool) (stub_path : Option String)
    (fs : FS (List BallEntry)) :
    Except PyErr (List BallEntry × ℕ × FS (List BallEntry)) :=
  match read_stub read_from_stub stub_path fs with
  | Except.error e => Except.error e
  | Except.ok (some tracks) =>
    if tracks.length = frames.length then Except.ok (tracks, 0, fs)
    else ballCompute det frames stub_path fs
  | Except.ok none => ballCompute det frames stub_path fs

/-- A detection re-labelled by the external multi-object tracker with a
persistent track identity. -/
structure TDet where
  bbox : BBox
  cls : String
  tid : ℕ
deriving DecidableEq

/-- One frame's player record: the Python dict `{track_id: {'bbox': b}}`
as an insertion-ordered association list. -/
abbrev PlayerEntry := List (ℕ × BBox)

/-- Python dict assignment `d[k] = v`: overwrite in place if the key
exists, else append. -/
def upsertEntry (m : PlayerEntry) (k : ℕ) (v : BBox) : PlayerEntry :=
  if m.any (fun kv => kv.1 = k) then
    m.map (fun kv => if kv.1 = k then (k, v) else kv)
  else m ++ [(k, v)]

/-- Build one frame's player entry from the tracker output
(src/trackers/player_tracker.py, lines 97-104): keep detections of class
`Player` only. -/
def playerEntryOf (tds : List TDet) : PlayerEntry :=
  tds.foldl
    (fun acc td =>
      if td.cls = "Player" then upsertEntry acc td.tid td.bbox else acc)
    []

/-- Per-frame loop of `PlayerTracker.get_object_tracks`: feed each frame's
detections to the stateful external tracker in order; the last component
counts tracker calls. -/
def player_loop {σ : Type} (upd : σ → DetSet → σ × List TDet) :
    List DetSet → σ → List PlayerEntry × σ × ℕ
  | [], s => ([], s, 0)
  | ds :: rest, s =>
    let r1 := upd s ds
    let r2 := player_loop upd rest r1.1
    (playerEntryOf r1.2 :: r2.1, r2.2.1, r2.2.2 + 1)

/-- Cache-miss computation of `PlayerTracker.get_object_tracks`
(src/trackers/player_tracker.py, lines 76-108). -/
def playerCompute {σ : Type} (det : List Frame → List DetSet)
    (upd : σ → DetSet → σ × List TDet) (s0 : σ) (frames : List Frame)
    (stub_path : Option String) (fs : FS (List PlayerEntry)) :
    Except PyErr (List PlayerEntry × ℕ × ℕ × FS (List PlayerEntry)) :=
  let dres := detect_frames det frames
  let lres := player_loop upd dres.1 s0
  match save_stub stub_path lres.1 fs with
  | Except.error e => Except.error e
  | Except.ok fs1 => Except.ok (lres.1, dres.2, lres.2.2, fs1)

/-- Embedding of `PlayerTracker.get_object_tracks`
(src/trackers/player_tracker.py, lines 55-108); results carry the tracks,
the detector call count, the tracker call count and the file system. -/
def player_get_object_tracks {σ : Type} (det : List Frame → List DetSet)
    (upd : σ → DetSet → σ × List TDet) (s0 : σ) (frames : List Frame)
    (read_from_stub : Bool) (stub_path : Option String)
    (fs : FS (List PlayerEntry)) :
    Except PyErr (List PlayerEntry × ℕ × ℕ × FS (List PlayerEntry)) :=
  match read_stub read_from_stub stub_path fs with
  | Except.error e => Except.error e
  | Except.ok (some tracks) =>
    if tracks.length = frames.length then Except.ok (tracks, 0, 0, fs)
    else playerCompute det upd s0 frames stub_path fs
  | Except.ok none => playerCompute det upd s0 frames stub_path fs

theorem player_loop_length {σ : Type} (upd : σ → DetSet → σ × List TDet) :
    ∀ (dss : List DetSet) (s : σ), (player_loop upd dss s).1.length = dss.length := by
  intro dss
  induction dss with
  | nil => intro s; rfl
  | cons ds rest ih => intro s; simp [player_loop, ih]

/-- A freshly written file reads back as the written record. -/
theorem lookupFile_write {α : Type} (fs : FS α) (p : String) (v : α) :
    (fs.writeFile p v).lookupFile p = some (Blob.good v) := by
  simp [FS.lookupFile, FS.writeFile]

/-- C4: for every frame list, when caching is enabled and the cache load
yields a sequence of exactly the frame count, `get_object_tracks` (ball
and player alike) returns the cached sequence unchanged, makes zero
external detector/tracker calls, and performs no cache write. -/
theorem claim_C4_cache_hit :
    ∀ (frames : List Frame) (p : String),
      (∀ (det : List Frame → List DetSet) (fs : FS (List BallEntry))
          (cached : List BallEntry),
        fs.lookupFile p = some (Blob.good cached) →
        cached.length = frames.length →
        ball_get_object_tracks det frames true (some p) fs =
          Except.ok (cached, 0, fs)) ∧
      (∀ (σ : Type) (det : List Frame → List DetSet)
          (upd : σ → DetSet → σ × List TDet) (s0 : σ)
          (fs : FS (List PlayerEntry)) (cached : List PlayerEntry),
        fs.lookupFile p = some (Blob.good cached) →
        cached.length = frames.length →
        player_get_object_tracks det upd s0 frames true (some p) fs =
          Except.ok (cached, 0, 0, fs)) := by
  intro frames p
  constructor
  · intro det fs cached hlook hlen
    simp [ball_get_object_tracks, read_stub, hlook, hlen]
  · intro σ det upd s0 fs cached hlook hlen
    simp [player_get_object_tracks, read_stub, hlook, hlen]

/-- A file system whose ball cache holds a record of length 1. -/
def fsBallHit : FS (List BallEntry) :=
  ⟨[("stubs/ball.pkl", Blob.good [some b00])], ["stubs"]⟩

/-- Witness for C4: a one-frame run against a one-entry cache returns the
cache verbatim with no detector call and no write. -/
theorem claim_C4_cache_hit_witness :
    ball_get_object_tracks (fun b => b.map (fun _ => ([] : DetSet))) [0] true
      (some "stubs/ball.pkl") fsBallHit = Except.ok ([some b00], 0, fsBallHit) :=
  (claim_C4_cache_hit [0] "stubs/ball.pkl").1 _ fsBallHit [some b00] rfl rfl

/-- C5: for every frame list of length N and cached sequence of length
M ≠ N, `get_object_tracks` (ball and player alike) discards the cache,
computes a fresh per-frame track sequence of length N (assuming the
external detector yields one detection set per input frame), persists it
to the cache path, and returns it. -/
theorem claim_C5_cache_stale :
    ∀ (frames : List Frame) (p : String) (det : List Frame → List DetSet),
      (∀ b, (det b).length = b.length) →
      (∀ (fs : FS (List BallEntry)) (cached : List BallEntry),
        fs.lookupFile p = some (Blob.good cached) →
        cached.length ≠ frames.length →
        ∃ tracks n fs1,
          ball_get_object_tracks det frames true (some p) fs =
            Except.ok (tracks, n, fs1) ∧
          tracks.length = frames.length ∧
          fs1.lookupFile p = some (Blob.good tracks)) ∧
      (∀ (σ : Type) (upd : σ → DetSet → σ × List TDet) (s0 : σ)
          (fs : FS (List PlayerEntry)) (cached : List PlayerEntry),
        fs.lookupFile p = some (Blob.good cached) →
        cached.length ≠ frames.length →
        ∃ tracks n m fs1,
          player_get_object_tracks det upd s0 frames true (some p) fs =
            Except.ok (tracks, n, m, fs1) ∧
          tracks.length = frames.length ∧
          fs1.lookupFile p = some (Blob.good tracks)) := by
  intro frames p det hdet
  constructor
  · intro fs cached hlook hlen
    have hrun : ball_get_object_tracks det frames true (some p) fs =
        Except.ok ((detect_frames det frames).1.map ballTrackFromDets,
          (detect_frames det frames).2,
          (if fs.pathExists (dirname p) then fs
            else fs.mkdir (dirname p)).writeFile p
            ((detect_frames det frames).1.map ballTrackFromDets)) := by
      simp [ball_get_object_tracks, read_stub, hlook, hlen, ballCompute,
        save_stub]
    refine ⟨_, _, _, hrun, ?_, lookupFile_write _ p _⟩
    rw [List.length_map, detect_frames_length det hdet]
  · intro σ upd s0 fs cached hlook hlen
    have hrun : player_get_object_tracks det upd s0 frames true (some p) fs =
        Except.ok ((player_loop upd (detect_frames det frames).1 s0).1,
          (detect_frames det frames).2,
          (player_loop upd (detect_frames det frames).1 s0).2.2,
          (if fs.pathExists (dirname p) then fs
            else fs.mkdir (dirname p)).writeFile p
            (player_loop upd (detect_frames det frames).1 s0).1) := by
      simp [player_get_object_tracks, read_stub, hlook, hlen, playerCompute,
        save_stub]
    refine ⟨_, _, _, _, hrun, ?_, lookupFile_write _ p _⟩
    rw [player_loop_length, detect_frames_length det hdet]

/-- A file system whose ball cache holds a stale (empty) record. -/
def fsBallStale : FS (List BallEntry) :=
  ⟨[("stubs/ball.pkl", Blob.good [])], ["stubs"]⟩

/-- Witness for C5: a one-frame run against a zero-length cache recomputes
a length-1 sequence and persists it. -/
theorem claim_C5_cache_stale_witness :
    ∃ tracks n fs1,
      ball_get_object_tracks (fun b => b.map (fun _ => ([] : DetSet))) [0] true
        (some "stubs/ball.pkl") fsBallStale = Except.ok (tracks, n, fs1) ∧
      tracks.length = [(0 : Frame)].length ∧
      fs1.lookupFile "stubs/ball.pkl" = some (Blob.good tracks) :=
  (claim_C5_cache_stale [0] "stubs/ball.pkl" _ (fun b => by simp)).1
    fsBallStale [] rfl (by decide)

/-! ## The stub cache claims -/

/-- C6 (divergence witnessed): calling `save_stub` with an unset path is
NOT a no-op; the source evaluates `os.path.dirname(stub_path)` on line 35
before reaching its `stub_path is not None` guard on line 39, so the call
raises `TypeError` instead of writing nothing and succeeding. -/
theorem claim_C6_save_unset_path :
    ∀ (α : Type) (v : α) (fs : FS α),
      save_stub none v fs = Except.error PyErr.typeError := by
  intro α v fs
  rfl

/-- C7: `read_stub` returns absent exactly when the enabled flag is
false, the path is unset, or no record exists at the path; a well-pickled
record is returned verbatim (no length or validity check), and a corrupt
record surfaces as an error rather than as absent. -/
theorem claim_C7_read_stub :
    ∀ (enabled : Bool) (sp : Option String) (fs : FS (List BallEntry)),
      (read_stub enabled sp fs = Except.ok none ↔
        (enabled = false ∨ sp = none ∨
          ∀ p, sp = some p → fs.lookupFile p = none)) ∧
      (∀ p v, enabled = true → sp = some p →
        fs.lookupFile p = some (Blob.good v) →
        read_stub enabled sp fs = Except.ok (some v)) ∧
      (∀ p, enabled = true → sp = some p →
        fs.lookupFile p = some Blob.corrupt →
        read_stub enabled sp fs = Except.error PyErr.unpickleError) := by
  intro enabled sp fs
  refine ⟨⟨?_, ?_⟩, ?_, ?_⟩
  · intro h
    cases enabled with
    | false => left; rfl
    | true =>
      cases sp with
      | none => right; left; rfl
      | some p =>
        right; right
        intro q hq
        injection hq with hq'
        subst hq'
        cases hl : fs.lookupFile p with
        | none => rfl
        | some b =>
          cases b with
          | good v => simp [read_stub, hl] at h
          | corrupt => simp [read_stub, hl] at h
  · intro h
    rcases h with h | h | h
    · subst h; rfl
    · subst h; cases enabled <;> rfl
    · cases enabled with
      | false => rfl
      | true =>
        cases sp with
        | none => rfl
        | some p => simp [read_stub, h p rfl]
  · intro p v he hs hl
    subst he; subst hs
    simp [read_stub, hl]
  · intro p he hs hl
    subst he; subst hs
    simp [read_stub, hl]

/-- Witness for C7 at a concrete store: an enabled read of an existing
well-pickled record returns it verbatim. -/
theorem claim_C7_read_stub_witness :
    read_stub true (some "stubs/ball.pkl") fsBallHit =
      Except.ok (some [some b00]) :=
  (claim_C7_read_stub true (some "stubs/ball.pkl") fsBallHit).2.1
    "stubs/ball.pkl" [some b00] rfl rfl rfl

/-! ## Gap filling (`BallTracker.interpolate_ball_positions`)

The source extracts the raw bbox rows (`[]` for a missing frame), builds a
four-column `pandas` DataFrame, applies `interpolate()` (linear over the
integer index, which also forward-fills a trailing gap) and then `bfill()`
(which back-fills a leading gap), and re-wraps every row. Each coordinate
is one independent column. -/

/-- Scan for the first valid value of a column (suffix form). -/
def fvAux : List (Option ℚ) → ℕ → Option (ℕ × ℚ)
  | [], _ => none
  | some v :: _, i => some (i, v)
  | none :: rest, i => fvAux rest (i + 1)

/-- First valid value of column `col` at index `i` or later, with its index. -/
def firstValidFrom (col : List (Option ℚ)) (i : ℕ) : Option (ℕ × ℚ) :=
  fvAux (col.drop i) i

/-- Scan for the last valid value of a column (prefix form). -/
def lvAux : List (Option ℚ) → ℕ → Option (ℕ × ℚ) → Option (ℕ × ℚ)
  | [], _, acc => acc
  | some v :: rest, i, _ => lvAux rest (i + 1) (some (i, v))
  | none :: rest, i, acc => lvAux rest (i + 1) acc

/-- Last valid value of column `col` strictly before index `i`, with its
index. -/
def lastValidBefore (col : List (Option ℚ)) (i : ℕ) : Option (ℕ × ℚ) :=
  lvAux (col.take i) 0 none

/-- Value of `Series.interpolate()` (linear over the integer index) at
index `i`: a present value stays; a missing one with valid neighbours on
both sides becomes the linear interpolant of the nearest ones; a missing
one with only earlier valid values takes the last of them; a leading
missing value stays missing. -/
def interpVal (col : List (Option ℚ)) (i : ℕ) : Option ℚ :=
  match (col[i]?) with
  | some (some v) => some v
  | _ =>
    match lastValidBefore col i, firstValidFrom col (i + 1) with
    | some jv, some kv =>
      some (jv.2 + (kv.2 - jv.2) *
        (((i : ℚ) - (jv.1 : ℚ)) / ((kv.1 : ℚ) - (jv.1 : ℚ))))
    | some jv, none => some jv.2
    | none, _ => none

/-- `Series.interpolate()` applied to a whole column. -/
def interpolateCol (col : List (Option ℚ)) : List (Option ℚ) :=
  (List.range col.length).map (interpVal col)

/-- Value of `bfill()` at index `i`: a missing value takes the next valid
value at or after `i`, if any. -/
def bfillVal (col : List (Option ℚ)) (i : ℕ) : Option ℚ :=
  match (col[i]?) with
  | some (some v) => some v
  | _ => (firstValidFrom col i).map (fun kv => kv.2)

/-- `bfill()` applied to a whole column. -/
def bfillCol (col : List (Option ℚ)) : List (Option ℚ) :=
  (List.range col.length).map (bfillVal col)

/-- One coordinate column of the extracted rows. -/
def colOf (f : BBox → ℚ) (pos : List BallEntry) : List (Option ℚ) :=
  pos.map (fun e => e.map f)

/-- Re-wrap the four filled columns as rows (`df.to_numpy().tolist()`
followed by `{1: {'bbox': x}}`); a row in which some coordinate is still
missing would be a NaN box and is mapped to an empty entry (this case is
unreachable once any input row is valid). -/
def recombine :
    List (Option ℚ) → List (Option ℚ) → List (Option ℚ) → List (Option ℚ) →
      List BallEntry
  | a :: as, b :: bs, col :: cs, d :: ds =>
    (match a, b, col, d with
     | some x1, some y1, some x2, some y2 => some (x1, y1, x2, y2)
     | _, _, _, _ => none) :: recombine as bs cs ds
  | _, _, _, _ => []

/-- Interpolate and back-fill one column (`interpolate()` then `bfill()`). -/
def fillCol (col : List (Option ℚ)) : List (Option ℚ) :=
  bfillCol (interpolateCol col)

/-- Embedding of `BallTracker.interpolate_ball_positions`
(src/trackers/ball_tracker.py, lines 164-190). Building the DataFrame
from the extracted rows raises `ValueError` when the frame list is
nonempty and every row is the empty list: pandas infers zero data columns
from all-empty rows and rejects the four requested column names
("4 columns passed, passed data had 0 columns"). Otherwise each of the
four coordinates is interpolated and back-filled independently and every
row is re-wrapped. -/
def interpolate_ball_positions (ball_positions : List BallEntry) :
    Except PyErr (List BallEntry) :=
  if ball_positions ≠ [] ∧ ball_positions.all (fun e => e.isNone) then
    Except.error PyErr.valueError
  else
    Except.ok (recombine
      (fillCol (colOf (fun b => b.1) ball_positions))
      (fillCol (colOf (fun b => b.2.1) ball_positions))
      (fillCol (colOf (fun b => b.2.2.1) ball_positions))
      (fillCol (colOf (fun b => b.2.2.2) ball_positions)))

theorem firstValidFrom_eq (col : List (Option ℚ)) (k : ℕ) (v : ℚ)
    (hk : col[k]? = some (some v)) :
    ∀ (i : ℕ), i ≤ k → (∀ m, i ≤ m → m < k → col[m]? = some none) →
      firstValidFrom col i = some (k, v) := by
  have key : ∀ (n i : ℕ), k - i = n → i ≤ k →
      (∀ m, i ≤ m → m < k → col[m]? = some none) →
      firstValidFrom col i = some (k, v) := by
    intro n
    induction n with
    | zero =>
      intro i hn hik hmid
      have hik' : i = k := by omega
      subst hik'
      have hlt : i < col.length := by
        rcases Nat.lt_or_ge i col.length with h1 | h1
        · exact h1
        · rw [List.getElem?_eq_none h1] at hk; cases hk
      unfold firstValidFrom
      rw [List.drop_eq_getElem_cons hlt]
      have hcv : col[i] = some v := by
        have hg := List.getElem?_eq_getElem hlt
        rw [hg] at hk
        injection hk
      rw [hcv]
      rfl
    | succ n ih =>
      intro i hn hik hmid
      have hlt : i < k := by omega
      have hi : col[i]? = some none := hmid i (le_refl _) hlt
      have hilen : i < col.length := by
        rcases Nat.lt_or_ge i col.length with h1 | h1
        · exact h1
        · rw [List.getElem?_eq_none h1] at hi; cases hi
      have hstep : firstValidFrom col i = firstValidFrom col (i + 1) := by
        unfold firstValidFrom
        rw [List.drop_eq_getElem_cons hilen]
        have hci : col[i] = none := by
          have hg := List.getElem?_eq_getElem hilen
          rw [hg] at hi
          injection hi
        rw [hci]
        rfl
      rw [hstep]
      exact ih (i + 1) (by omega) (by omega)
        (fun m hm1 hm2 => hmid m (by omega) hm2)
  intro i hik hmid
  exact key (k - i) i rfl hik hmid

theorem lastValidBefore_eq (col : List (Option ℚ)) (j : ℕ) (a : ℚ)
    (hjv : col[j]? = some (some a)) :
    ∀ (i : ℕ), j < i → (∀ m, j < m → m < i → col[m]? = some none) →
      lastValidBefore col i = some (j, a) := by
  have hjlen : j < col.length := by
    rcases Nat.lt_or_ge j col.length with h1 | h1
    · exact h1
    · rw [List.getElem?_eq_none h1] at hjv; cases hjv
  intro i hji
  induction i, hji using Nat.le_induction with
  | base =>
    intro _
    unfold lastValidBefore
    rw [List.take_succ, hjv]
    have hlv : ∀ (l : List (Option ℚ)) (n : ℕ) (acc : Option (ℕ × ℚ)),
        lvAux (l ++ [some a]) n acc = some (n + l.length, a) := by
      intro l
      induction l with
      | nil => intro n acc; simp [lvAux]
      | cons e rest ihl =>
        intro n acc
        cases e with
        | none => rw [List.cons_append, lvAux, ihl]; congr 1; simp; omega
        | some w => rw [List.cons_append, lvAux, ihl]; congr 1; simp; omega
    rw [show (some (some a)).toList = [some a] from rfl, hlv]
    congr 1
    simp [List.length_take]
    omega
  | succ i hji ih =>
    intro hmid
    have hi : col[i]? = some none := hmid i (by omega) (by omega)
    have hilen : i < col.length := by
      rcases Nat.lt_or_ge i col.length with h1 | h1
      · exact h1
      · rw [List.getElem?_eq_none h1] at hi; cases hi
    have hprev := ih (fun m hm1 hm2 => hmid m hm1 (by omega))
    unfold lastValidBefore at hprev ⊢
    rw [List.take_succ, hi]
    rw [show (some (none : Option ℚ)).toList = [none] from rfl]
    have hsplit : ∀ (l : List (Option ℚ)) (n : ℕ) (acc : Option (ℕ × ℚ)),
        lvAux (l ++ [none]) n acc = lvAux l n acc := by
      intro l
      induction l with
      | nil => intro n acc; rfl
      | cons e rest ihl =>
        intro n acc
        cases e with
        | none => rw [List.cons_append, lvAux, ihl]; rfl
        | some w => rw [List.cons_append, lvAux, ihl]; rfl
    rw [hsplit]
    exact hprev

theorem lvAux_some_acc :
    ∀ (l : List (Option ℚ)) (n j : ℕ) (a : ℚ),
      (lvAux l n (some (j, a))).isSome := by
  intro l
  induction l with
  | nil => intro n j a; rfl
  | cons e rest ih =>
    intro n j a
    cases e with
    | none => exact ih (n + 1) j a
    | some w => exact ih (n + 1) n w

theorem lvAux_isSome :
    ∀ (l : List (Option ℚ)) (n : ℕ) (acc : Option (ℕ × ℚ)),
      (∃ e ∈ l, e.isSome) → (lvAux l n acc).isSome := by
  intro l
  induction l with
  | nil => intro n acc h; rcases h with ⟨e, he, _⟩; cases he
  | cons e rest ih =>
    intro n acc h
    cases e with
    | some w => exact lvAux_some_acc rest (n + 1) n w
    | none =>
      rcases h with ⟨e', he', hs⟩
      rcases List.mem_cons.1 he' with rfl | he''
      · cases hs
      · exact ih (n + 1) acc ⟨e', he'', hs⟩

/-- If some earlier index holds a value, the backward scan finds one. -/
theorem lastValidBefore_isSome (col : List (Option ℚ)) (i m : ℕ) (w : ℚ)
    (hm : m < i) (hv : col[m]? = some (some w)) :
    (lastValidBefore col i).isSome := by
  apply lvAux_isSome
  refine ⟨some w, ?_, rfl⟩
  rw [List.mem_iff_getElem?]
  exact ⟨m, by rw [List.getElem?_take_of_lt hm]; exact hv⟩

theorem lvAux_all_none :
    ∀ (l : List (Option ℚ)) (n : ℕ) (acc : Option (ℕ × ℚ)),
      (∀ e ∈ l, e = none) → lvAux l n acc = acc := by
  intro l
  induction l with
  | nil => intro n acc _; rfl
  | cons e rest ih =>
    intro n acc h
    have he : e = none := h e (List.mem_cons_self _ _)
    subst he
    exact ih (n + 1) acc (fun e' he' => h e' (List.mem_cons_of_mem _ he'))

/-- If every index before `i` is an empty row, no last valid value exists. -/
theorem lastValidBefore_none (col : List (Option ℚ)) (i : ℕ)
    (h : ∀ m, m < i → col[m]? = some none) :
    lastValidBefore col i = none := by
  apply lvAux_all_none
  intro e he
  rw [List.mem_iff_getElem?] at he
  rcases he with ⟨m, hm⟩
  have hmlt : m < i := by
    rcases Nat.lt_or_ge m i with h1 | h1
    · exact h1
    · exfalso
      have hlen : (col.take i).length ≤ m := le_trans (by simp) h1
      rw [List.getElem?_eq_none hlen] at hm
      cases hm
  rw [List.getElem?_take_of_lt hmlt, h m hmlt] at hm
  injection hm with hm'
  exact hm'.symm

theorem fvAux_isSome :
    ∀ (l : List (Option ℚ)) (i : ℕ),
      (∃ e ∈ l, e.isSome) → (fvAux l i).isSome := by
  intro l
  induction l with
  | nil => intro i h; rcases h with ⟨e, he, _⟩; cases he
  | cons e rest ih =>
    intro i h
    cases e with
    | some w => rfl
    | none =>
      rcases h with ⟨e', he', hs⟩
      rcases List.mem_cons.1 he' with rfl | he''
      · cases hs
      · exact ih (i + 1) ⟨e', he'', hs⟩

/-- If some index at or after `i` holds a value, the forward scan finds one. -/
theorem firstValidFrom_isSome (col : List (Option ℚ)) (i k : ℕ) (v : ℚ)
    (hik : i ≤ k) (hv : col[k]? = some (some v)) :
    (firstValidFrom col i).isSome := by
  apply fvAux_isSome
  refine ⟨some v, ?_, rfl⟩
  rw [List.mem_iff_getElem?]
  refine ⟨k - i, ?_⟩
  rw [List.getElem?_drop]
  rw [show i + (k - i) = k by omega]
  exact hv

theorem interpVal_valid (col : List (Option ℚ)) (i : ℕ) (v : ℚ)
    (h : col[i]? = some (some v)) : interpVal col i = some v := by
  unfold interpVal
  rw [h]

theorem interpVal_lerp (col : List (Option ℚ)) (i : ℕ) (jv kv : ℕ × ℚ)
    (hci : col[i]? = some none) (hlv : lastValidBefore col i = some jv)
    (hfv : firstValidFrom col (i + 1) = some kv) :
    interpVal col i = some (jv.2 + (kv.2 - jv.2) *
      (((i : ℚ) - (jv.1 : ℚ)) / ((kv.1 : ℚ) - (jv.1 : ℚ)))) := by
  unfold interpVal
  rw [hci, hlv, hfv]

theorem interpVal_ffill (col : List (Option ℚ)) (i : ℕ) (jv : ℕ × ℚ)
    (hci : col[i]? = some none) (hlv : lastValidBefore col i = some jv)
    (hfv : firstValidFrom col (i + 1) = none) :
    interpVal col i = some jv.2 := by
  unfold interpVal
  rw [hci, hlv, hfv]

theorem interpVal_none (col : List (Option ℚ)) (i : ℕ)
    (hci : col[i]? = some none) (hlv : lastValidBefore col i = none) :
    interpVal col i = none := by
  unfold interpVal
  rw [hci, hlv]

theorem bfillVal_valid (col : List (Option ℚ)) (i : ℕ) (v : ℚ)
    (h : col[i]? = some (some v)) : bfillVal col i = some v := by
  unfold bfillVal
  rw [h]

theorem bfillVal_missing (col : List (Option ℚ)) (i : ℕ)
    (h : col[i]? = some none) :
    bfillVal col i = (firstValidFrom col i).map (fun kv => kv.2) := by
  unfold bfillVal
  rw [h]

theorem interpolateCol_length (col : List (Option ℚ)) :
    (interpolateCol col).length = col.length := by
  simp [interpolateCol]

theorem bfillCol_length (col : List (Option ℚ)) :
    (bfillCol col).length = col.length := by
  simp [bfillCol]

theorem fillCol_length (col : List (Option ℚ)) :
    (fillCol col).length = col.length := by
  simp [fillCol, bfillCol_length, interpolateCol_length]

theorem interpolateCol_getElem (col : List (Option ℚ)) (i : ℕ)
    (h : i < col.length) :
    (interpolateCol col)[i]? = some (interpVal col i) := by
  unfold interpolateCol
  rw [List.getElem?_map, List.getElem?_range h]
  rfl

theorem bfillCol_getElem (col : List (Option ℚ)) (i : ℕ)
    (h : i < col.length) :
    (bfillCol col)[i]? = some (bfillVal col i) := by
  unfold bfillCol
  rw [List.getElem?_map, List.getElem?_range h]
  rfl

/-- Valid values survive interpolation unchanged. -/
theorem interpolateCol_valid (col : List (Option ℚ)) (k : ℕ) (v : ℚ)
    (h : col[k]? = some (some v)) :
    (interpolateCol col)[k]? = some (some v) := by
  have hk : k < col.length := by
    rcases Nat.lt_or_ge k col.length with h1 | h1
    · exact h1
    · rw [List.getElem?_eq_none h1] at h; cases h
  rw [interpolateCol_getElem col k hk, interpVal_valid col k v h]

/-- A missing interpolated value means no valid value preceded it. -/
theorem interpVal_eq_none_inv (col : List (Option ℚ)) (i : ℕ)
    (h : interpVal col i = none) : lastValidBefore col i = none := by
  unfold interpVal at h
  split at h
  · exact absurd h (by simp)
  · split at h
    · exact absurd h (by simp)
    · exact absurd h (by simp)
    · assumption

theorem getElem?_append_add {α : Type} :
    ∀ (pre suf : List α) (n : ℕ), (pre ++ suf)[pre.length + n]? = suf[n]? := by
  intro pre
  induction pre with
  | nil => intro suf n; simp
  | cons x pre ih =>
    intro suf n
    have harith : (x :: pre).length + n = (pre.length + n) + 1 := by
      simp
      omega
    rw [harith, List.cons_append, List.getElem?_cons_succ]
    exact ih suf n

/-- Interpolation followed by back-fill leaves no hole when the column has
at least one valid value. -/
theorem fillCol_total (col : List (Option ℚ)) (k : ℕ) (v : ℚ)
    (hk : col[k]? = some (some v)) :
    ∀ i, i < col.length → ∃ w, (fillCol col)[i]? = some (some w) := by
  intro i hi
  have hXlen : i < (interpolateCol col).length := by
    rw [interpolateCol_length]; exact hi
  have hX : (interpolateCol col)[i]? = some (interpVal col i) :=
    interpolateCol_getElem col i hi
  unfold fillCol
  rw [bfillCol_getElem _ i hXlen]
  cases hv : interpVal col i with
  | some w =>
    refine ⟨w, ?_⟩
    rw [bfillVal_valid _ i w (by rw [hX, hv])]
  | none =>
    have hXi : (interpolateCol col)[i]? = some none := by rw [hX, hv]
    rw [bfillVal_missing _ i hXi]
    have hlvnone : lastValidBefore col i = none := interpVal_eq_none_inv col i hv
    have hik : i ≤ k := by
      by_contra hik
      push_neg at hik
      have hsome := lastValidBefore_isSome col i k v hik hk
      rw [hlvnone] at hsome
      cases hsome
    have hXk : (interpolateCol col)[k]? = some (some v) :=
      interpolateCol_valid col k v hk
    have hfv := firstValidFrom_isSome (interpolateCol col) i k v hik hXk
    rcases Option.isSome_iff_exists.1 hfv with ⟨kv, hkv⟩
    exact ⟨kv.2, by rw [hkv]; rfl⟩

/-- A leading run of missing values is back-filled with the first valid
value of the column. -/
theorem fillCol_leading (n : ℕ) (v : ℚ) (rest : List (Option ℚ)) :
    ∀ i, i < n →
      (fillCol (List.replicate n none ++ some v :: rest))[i]? =
        some (some v) := by
  intro i hi
  have hmlt : ∀ m, m < n →
      (List.replicate n none ++ some v :: rest)[m]? = some (none : Option ℚ) := by
    intro m hm
    rw [getElem?_append_lt _ _ m (by simpa using hm),
      List.getElem?_replicate_of_lt hm]
  have hvn : (List.replicate n none ++ some v :: rest)[n]? = some (some v) := by
    have hmid := getElem?_append_middle (List.replicate n none) (some v) rest
    simpa using hmid
  have hilen : i < (List.replicate n none ++ some v :: rest).length := by
    simp
    omega
  have hXnone : ∀ m, m < n →
      (interpolateCol (List.replicate n none ++ some v :: rest))[m]? =
        some (none : Option ℚ) := by
    intro m hm
    rw [interpolateCol_getElem _ m (by simp; omega)]
    rw [interpVal_none _ m (hmlt m hm)
      (lastValidBefore_none _ m (fun m' hm' => hmlt m' (by omega)))]
  have hXn : (interpolateCol (List.replicate n none ++ some v :: rest))[n]? =
      some (some v) := interpolateCol_valid _ n v hvn
  have hfv : firstValidFrom
      (interpolateCol (List.replicate n none ++ some v :: rest)) i =
      some (n, v) :=
    firstValidFrom_eq _ n v hXn i (by omega)
      (fun m h1 h2 => hXnone m h2)
  unfold fillCol
  rw [bfillCol_getElem _ i (by rw [interpolateCol_length]; exact hilen)]
  rw [bfillVal_missing _ i (hXnone i hi), hfv]
  rfl

/-- An interior gap of `g` missing values between valid values `a` and
`bb` is filled linearly: the `t`-th missing frame (0-based) becomes
`a + (bb - a) * (t + 1) / (g + 1)`. -/
theorem fillCol_interior (P : List (Option ℚ)) (a : ℚ) (g : ℕ) (bb : ℚ)
    (S : List (Option ℚ)) (t : ℕ) (ht : t < g) :
    (fillCol (P ++ some a :: (List.replicate g none ++ some bb :: S)))[P.length + 1 + t]? =
      some (some (a + (bb - a) * (((t : ℚ) + 1) / ((g : ℚ) + 1)))) := by
  have hja : (P ++ some a :: (List.replicate g none ++ some bb :: S))[P.length]? =
      some (some a) := getElem?_append_middle P (some a) _
  have hmid : ∀ m, m < g →
      (P ++ some a :: (List.replicate g none ++ some bb :: S))[P.length + 1 + m]? =
        some (none : Option ℚ) := by
    intro m hm
    rw [show P.length + 1 + m = P.length + (m + 1) by omega]
    rw [getElem?_append_add P _ (m + 1), List.getElem?_cons_succ]
    rw [getElem?_append_lt _ _ m (by simpa using hm),
      List.getElem?_replicate_of_lt hm]
  have hkb : (P ++ some a :: (List.replicate g none ++ some bb :: S))[P.length + 1 + g]? =
      some (some bb) := by
    rw [show P.length + 1 + g = P.length + (g + 1) by omega]
    rw [getElem?_append_add P _ (g + 1), List.getElem?_cons_succ]
    have hmid2 := getElem?_append_middle (List.replicate g none) (some bb) S
    simpa using hmid2
  have hlv : lastValidBefore (P ++ some a :: (List.replicate g none ++ some bb :: S))
      (P.length + 1 + t) = some (P.length, a) :=
    lastValidBefore_eq _ P.length a hja (P.length + 1 + t) (by omega)
      (fun m h1 h2 => by
        rw [show m = P.length + 1 + (m - P.length - 1) by omega]
        exact hmid _ (by omega))
  have hfv : firstValidFrom (P ++ some a :: (List.replicate g none ++ some bb :: S))
      (P.length + 1 + t + 1) = some (P.length + 1 + g, bb) :=
    firstValidFrom_eq _ (P.length + 1 + g) bb hkb (P.length + 1 + t + 1) (by omega)
      (fun m h1 h2 => by
        rw [show m = P.length + 1 + (m - P.length - 1) by omega]
        exact hmid _ (by omega))
  have hci : (P ++ some a :: (List.replicate g none ++ some bb :: S))[P.length + 1 + t]? =
      some (none : Option ℚ) := hmid t ht
  have hval := interpVal_lerp _ (P.length + 1 + t) (P.length, a)
    (P.length + 1 + g, bb) hci hlv hfv
  have hilen : P.length + 1 + t <
      (P ++ some a :: (List.replicate g none ++ some bb :: S)).length := by
    simp
    omega
  unfold fillCol
  rw [bfillCol_getElem _ _ (by rw [interpolateCol_length]; exact hilen)]
  rw [bfillVal_valid _ _ _ (by
    rw [interpolateCol_getElem _ _ hilen, hval])]
  congr 2
  have h1 : ((P.length + 1 + t : ℕ) : ℚ) - (P.length : ℚ) = (t : ℚ) + 1 := by
    push_cast
    ring
  have h2 : ((P.length + 1 + g : ℕ) : ℚ) - (P.length : ℚ) = (g : ℚ) + 1 := by
    push_cast
    ring
  show a + (bb - a) *
      ((((P.length + 1 + t : ℕ) : ℚ) - (P.length : ℚ)) /
        (((P.length + 1 + g : ℕ) : ℚ) - (P.length : ℚ))) =
    a + (bb - a) * (((t : ℚ) + 1) / ((g : ℚ) + 1))
  rw [h1, h2]

theorem recombine_cons (x1 x2 x3 x4 : Option ℚ)
    (cl1 cl2 cl3 cl4 : List (Option ℚ)) :
    recombine (x1 :: cl1) (x2 :: cl2) (x3 :: cl3) (x4 :: cl4) =
      (match x1, x2, x3, x4 with
       | some w1, some w2, some w3, some w4 => some (w1, w2, w3, w4)
       | _, _, _, _ => none) :: recombine cl1 cl2 cl3 cl4 := rfl

theorem recombine_entry :
    ∀ (cl1 cl2 cl3 cl4 : List (Option ℚ)) (i : ℕ) (w1 w2 w3 w4 : ℚ),
      cl1[i]? = some (some w1) → cl2[i]? = some (some w2) →
      cl3[i]? = some (some w3) → cl4[i]? = some (some w4) →
      (recombine cl1 cl2 cl3 cl4)[i]? = some (some (w1, w2, w3, w4)) := by
  intro cl1
  induction cl1 with
  | nil => intro cl2 cl3 cl4 i w1 w2 w3 w4 h1 _ _ _; simp at h1
  | cons x1 cl1 ih =>
    intro cl2 cl3 cl4 i w1 w2 w3 w4 h1 h2 h3 h4
    cases cl2 with
    | nil => simp at h2
    | cons x2 cl2 =>
      cases cl3 with
      | nil => simp at h3
      | cons x3 cl3 =>
        cases cl4 with
        | nil => simp at h4
        | cons x4 cl4 =>
          cases i with
          | zero =>
            have e1 : x1 = some w1 := by simpa using h1
            have e2 : x2 = some w2 := by simpa using h2
            have e3 : x3 = some w3 := by simpa using h3
            have e4 : x4 = some w4 := by simpa using h4
            subst e1; subst e2; subst e3; subst e4
            rw [recombine_cons]
            simp
          | succ i =>
            rw [recombine_cons, List.getElem?_cons_succ]
            exact ih cl2 cl3 cl4 i w1 w2 w3 w4 (by simpa using h1)
              (by simpa using h2) (by simpa using h3) (by simpa using h4)

theorem recombine_length :
    ∀ (cl1 cl2 cl3 cl4 : List (Option ℚ)),
      cl2.length = cl1.length → cl3.length = cl1.length →
      cl4.length = cl1.length →
      (recombine cl1 cl2 cl3 cl4).length = cl1.length := by
  intro cl1
  induction cl1 with
  | nil =>
    intro cl2 cl3 cl4 h2 h3 h4
    rw [List.length_eq_zero.1 h2]
    rfl
  | cons x1 cl1 ih =>
    intro cl2 cl3 cl4 h2 h3 h4
    cases cl2 with
    | nil => simp at h2
    | cons x2 cl2 =>
      cases cl3 with
      | nil => simp at h3
      | cons x3 cl3 =>
        cases cl4 with
        | nil => simp at h4
        | cons x4 cl4 =>
          rw [recombine_cons]
          simp only [List.length_cons] at h2 h3 h4 ⊢
          rw [ih cl2 cl3 cl4 (by omega) (by omega) (by omega)]

theorem colOf_length (f : BBox → ℚ) (l : List BallEntry) :
    (colOf f l).length = l.length := by
  simp [colOf]

theorem colOf_valid (f : BBox → ℚ) (l : List BallEntry) (k : ℕ) (b : BBox)
    (h : l[k]? = some (some b)) : (colOf f l)[k]? = some (some (f b)) := by
  unfold colOf
  rw [List.getElem?_map, h]
  rfl

theorem colOf_leading_shape (f : BBox → ℚ) (n : ℕ) (v : BBox)
    (rest : List BallEntry) :
    colOf f (List.replicate n none ++ some v :: rest) =
      List.replicate n none ++ some (f v) :: colOf f rest := by
  simp [colOf]

theorem colOf_interior_shape (f : BBox → ℚ) (P : List BallEntry) (a : BBox)
    (g : ℕ) (bb : BBox) (S : List BallEntry) :
    colOf f (P ++ some a :: (List.replicate g none ++ some bb :: S)) =
      colOf f P ++ some (f a) ::
        (List.replicate g none ++ some (f bb) :: colOf f S) := by
  simp [colOf]

/-- The non-error run of `interpolate_ball_positions`, in terms of the
four filled columns. -/
theorem interp_run (l : List BallEntry) (h : ∃ e ∈ l, e.isSome) :
    interpolate_ball_positions l = Except.ok (recombine
      (fillCol (colOf (fun b => b.1) l))
      (fillCol (colOf (fun b => b.2.1) l))
      (fillCol (colOf (fun b => b.2.2.1) l))
      (fillCol (colOf (fun b => b.2.2.2) l))) := by
  unfold interpolate_ball_positions
  rw [if_neg]
  rintro ⟨hne, hall⟩
  rcases h with ⟨e, he, hs⟩
  have hno := List.all_eq_true.1 hall e he
  rw [Option.isNone_iff_eq_none] at hno
  subst hno
  cases hs

/-- Linear interpolant of two boxes, `t + 1` steps into a gap of `g + 1`
frame intervals, per coordinate. -/
def lerpBox (a bb : BBox) (t g : ℕ) : BBox :=
  (a.1 + (bb.1 - a.1) * (((t : ℚ) + 1) / ((g : ℚ) + 1)),
   a.2.1 + (bb.2.1 - a.2.1) * (((t : ℚ) + 1) / ((g : ℚ) + 1)),
   a.2.2.1 + (bb.2.2.1 - a.2.2.1) * (((t : ℚ) + 1) / ((g : ℚ) + 1)),
   a.2.2.2 + (bb.2.2.2 - a.2.2.2) * (((t : ℚ) + 1) / ((g : ℚ) + 1)))

/-- C2: for every ball sequence with at least one box,
`interpolate_ball_positions` succeeds, keeps the length, yields a valid
box in every frame, back-fills any leading run of missing frames with the
first valid box, and fills each interior run of `g` missing frames
between two valid boxes linearly and per-coordinate; the concrete
four-frame example fills to `[10,10,20,20]` and `[20,20,30,30]`. -/
theorem claim_C2_interpolation :
    interpolate_ball_positions
        [some ((0 : ℚ), 0, 10, 10), none, none, some (30, 30, 40, 40)] =
      Except.ok [some ((0 : ℚ), 0, 10, 10), some (10, 10, 20, 20),
        some (20, 20, 30, 30), some (30, 30, 40, 40)] ∧
    (∀ l : List BallEntry, (∃ e ∈ l, e.isSome) →
      ∃ res, interpolate_ball_positions l = Except.ok res ∧
        res.length = l.length ∧
        ∀ i, i < res.length → ∃ b : BBox, res[i]? = some (some b)) ∧
    (∀ (n : ℕ) (v : BBox) (rest : List BallEntry) (res : List BallEntry),
      interpolate_ball_positions (List.replicate n none ++ some v :: rest) =
        Except.ok res →
      ∀ i, i < n → res[i]? = some (some v)) ∧
    (∀ (P : List BallEntry) (a bb : BBox) (g : ℕ) (S : List BallEntry)
        (t : ℕ) (res : List BallEntry),
      interpolate_ball_positions
          (P ++ some a :: (List.replicate g none ++ some bb :: S)) =
        Except.ok res →
      t < g →
      res[P.length + 1 + t]? = some (some (lerpBox a bb t g))) := by
  refine ⟨?_, ?_, ?_, ?_⟩
  · norm_num [interpolate_ball_positions, fillCol, bfillCol, interpolateCol,
      interpVal, bfillVal, lastValidBefore, firstValidFrom, lvAux, fvAux,
      colOf, recombine, List.range_succ]
  · intro l h
    refine ⟨_, interp_run l h, ?_, ?_⟩
    · rw [recombine_length _ _ _ _ (by simp [fillCol_length, colOf_length])
        (by simp [fillCol_length, colOf_length])
        (by simp [fillCol_length, colOf_length])]
      simp [fillCol_length, colOf_length]
    · intro i hi
      rw [recombine_length _ _ _ _ (by simp [fillCol_length, colOf_length])
        (by simp [fillCol_length, colOf_length])
        (by simp [fillCol_length, colOf_length]),
        fillCol_length, colOf_length] at hi
      rcases h with ⟨e, he, hs⟩
      cases e with
      | none => cases hs
      | some b =>
        rw [List.mem_iff_getElem?] at he
        rcases he with ⟨k, hk⟩
        rcases fillCol_total (colOf (fun x => x.1) l) k (b.1)
          (colOf_valid _ l k b hk) i (by rw [colOf_length]; exact hi) with ⟨w1, hw1⟩
        rcases fillCol_total (colOf (fun x => x.2.1) l) k (b.2.1)
          (colOf_valid _ l k b hk) i (by rw [colOf_length]; exact hi) with ⟨w2, hw2⟩
        rcases fillCol_total (colOf (fun x => x.2.2.1) l) k (b.2.2.1)
          (colOf_valid _ l k b hk) i (by rw [colOf_length]; exact hi) with ⟨w3, hw3⟩
        rcases fillCol_total (colOf (fun x => x.2.2.2) l) k (b.2.2.2)
          (colOf_valid _ l k b hk) i (by rw [colOf_length]; exact hi) with ⟨w4, hw4⟩
        exact ⟨(w1, w2, w3, w4),
          recombine_entry _ _ _ _ i w1 w2 w3 w4 hw1 hw2 hw3 hw4⟩
  · intro n v rest res hres i hi
    obtain ⟨v1, v2, v3, v4⟩ := v
    have hsome : ∃ e ∈ List.replicate n none ++ some (v1, v2, v3, v4) :: rest,
        e.isSome := by
      refine ⟨some (v1, v2, v3, v4), ?_, rfl⟩
      exact List.mem_append_right _ (List.mem_cons_self _ _)
    rw [interp_run _ hsome] at hres
    injection hres with hres'
    subst hres'
    apply recombine_entry _ _ _ _ i v1 v2 v3 v4 <;>
      rw [colOf_leading_shape] <;> exact fillCol_leading n _ _ i hi
  · intro P a bb g S t res hres ht
    obtain ⟨a1, a2, a3, a4⟩ := a
    obtain ⟨c1, c2, c3, c4⟩ := bb
    have hsome : ∃ e ∈ P ++ some (a1, a2, a3, a4) ::
        (List.replicate g none ++ some (c1, c2, c3, c4) :: S), e.isSome := by
      refine ⟨some (a1, a2, a3, a4), ?_, rfl⟩
      exact List.mem_append_right _ (List.mem_cons_self _ _)
    rw [interp_run _ hsome] at hres
    injection hres with hres'
    subst hres'
    apply recombine_entry _ _ _ _ (P.length + 1 + t) _ _ _ _ <;>
      rw [colOf_interior_shape] <;>
      first
        | exact (by
            have hfill := fillCol_interior (colOf (fun x => x.1) P) a1 g c1
              (colOf (fun x => x.1) S) t ht
            rwa [colOf_length] at hfill)
        | exact (by
            have hfill := fillCol_interior (colOf (fun x => x.2.1) P) a2 g c2
              (colOf (fun x => x.2.1) S) t ht
            rwa [colOf_length] at hfill)
        | exact (by
            have hfill := fillCol_interior (colOf (fun x => x.2.2.1) P) a3 g c3
              (colOf (fun x => x.2.2.1) S) t ht
            rwa [colOf_length] at hfill)
        | exact (by
            have hfill := fillCol_interior (colOf (fun x => x.2.2.2) P) a4 g c4
              (colOf (fun x => x.2.2.2) S) t ht
            rwa [colOf_length] at hfill)

/-- Witness for C2 at a concrete trajectory: `[∅, b00]` interpolates to a
sequence of the same length with a valid box everywhere. -/
theorem claim_C2_interpolation_witness :
    ∃ res, interpolate_ball_positions [none, some b00] = Except.ok res ∧
      res.length = [none, some b00].length ∧
      ∀ i, i < res.length → ∃ b : BBox, res[i]? = some (some b) :=
  claim_C2_interpolation.2.1 [none, some b00]
    ⟨some b00, List.mem_cons_of_mem none (List.mem_cons_self _ _), rfl⟩

/-- C3 counterexample: on the one-frame all-empty sequence the function is
not a no-op returning the empty sequence; it fails with `ValueError` while
building the four-column DataFrame from zero-width rows. -/
theorem claim_C3_counterexample :
    interpolate_ball_positions [none] = Except.error PyErr.valueError := by
  rfl

/-- C3 (amended): on the empty frame list the function returns the empty
sequence, but on every NONEMPTY all-empty sequence it raises `ValueError`
(pandas rejects four column names against all-empty rows) instead of
returning the sequence unchanged. -/
theorem claim_C3_all_missing :
    interpolate_ball_positions ([] : List BallEntry) = Except.ok [] ∧
    ∀ l : List BallEntry, l ≠ [] → (∀ e ∈ l, e = none) →
      interpolate_ball_positions l = Except.error PyErr.valueError := by
  constructor
  · rfl
  · intro l hne hall
    unfold interpolate_ball_positions
    have hcond : l ≠ [] ∧ l.all (fun e => e.isNone) :=
      ⟨hne, List.all_eq_true.2 (fun e he => by rw [hall e he]; rfl)⟩
    rw [if_pos hcond]

/-- Witness for C3 at a concrete trajectory: the two-frame all-empty
sequence raises. -/
theorem claim_C3_all_missing_witness :
    interpolate_ball_positions [none, none] = Except.error PyErr.valueError :=
  claim_C3_all_missing.2 [none, none] (by decide)
    (by intro e he; simpa using he)

/-! ## Team assignment (`TeamAssigner`) -/

/-- Mutable state of a `TeamAssigner` run: the per-identity memo table
`player_team_dict` (latest binding first) and, as instrumentation, the log
of player ids for which the external classifier has been invoked. -/
structure TAState where
  memo : List (ℕ × ℕ)
  log : List ℕ
deriving DecidableEq

/-- The external CLIP classifier abstracted to a capability: given the
frame and the player crop it answers which of the two textual class
descriptions scored higher (`0` = the team-1 description). -/
abbrev Classifier := Frame → BBox → Fin 2

/-- Embedding of `TeamAssigner.get_player_color`
(src/team_assigner/team_assigner.py, lines 63-100): the returned label is
the class description the classifier scored higher. -/
def get_player_color (cl : Classifier) (t1 t2 : String) (frame : Frame)
    (bbox : BBox) : String :=
  if cl frame bbox = 0 then t1 else t2

/-- Embedding of `TeamAssigner.get_player_team` (lines 102-131): memoized
per identity; on a miss, classify, map the label to team 1 exactly when it
equals the team-1 description (else team 2), memoize and return. The log
records the classifier invocation. -/
def get_player_team (cl : Classifier) (t1 t2 : String) (frame : Frame)
    (bbox : BBox) (player_id : ℕ) (st : TAState) : ℕ × TAState :=
  match st.memo.lookup player_id with
  | some team => (team, st)
  | none =>
    let player_color := get_player_color cl t1 t2 frame bbox
    let team_id := if player_color = t1 then 1 else 2
    (team_id, ⟨(player_id, team_id) :: st.memo, st.log ++ [player_id]⟩)

/-- Inner loop of `get_player_teams_across_frames` (lines 171-176): assign
a team to every player of one frame, in dict iteration order. -/
def assignFrame (cl : Classifier) (t1 t2 : String) (frame : Frame) :
    PlayerEntry → TAState → List (ℕ × ℕ) × TAState
  | [], st => ([], st)
  | (pid, bbox) :: rest, st =>
    let r := get_player_team cl t1 t2 frame bbox pid st
    let r2 := assignFrame cl t1 t2 frame rest r.2
    ((pid, r.1) :: r2.1, r2.2)

/-- Outer loop of `get_player_teams_across_frames` (lines 160-176): at
every frame index that is a multiple of 50 the memo table is wiped before
the frame's players are classified. -/
def teamsGo (cl : Classifier) (t1 t2 : String) (video_frames : List Frame) :
    List PlayerEntry → ℕ → TAState → List (List (ℕ × ℕ)) × TAState
  | [], _, st => ([], st)
  | pt :: rest, frame_num, st =>
    let st0 := if frame_num % 50 = 0 then (⟨[], st.log⟩ : TAState) else st
    let r := assignFrame cl t1 t2 (video_frames.getD frame_num 0) pt st0
    let r2 := teamsGo cl t1 t2 video_frames rest (frame_num + 1) r.2
    (r.1 :: r2.1, r2.2)

/-- Cache-miss computation of `get_player_teams_across_frames`. -/
def teamsCompute (cl : Classifier) (t1 t2 : String) (video_frames : List Frame)
    (player_tracks : List PlayerEntry) (stub_path : Option String)
    (fs : FS (List (List (ℕ × ℕ)))) (st : TAState) :
    Except PyErr (List (List (ℕ × ℕ)) × TAState × FS (List (List (ℕ × ℕ)))) :=
  let r := teamsGo cl t1 t2 video_frames player_tracks 0 st
  match save_stub stub_path r.1 fs with
  | Except.error e => Except.error e
  | Except.ok fs1 => Except.ok (r.1, r.2, fs1)

/-- Embedding of `TeamAssigner.get_player_teams_across_frames`
(src/team_assigner/team_assigner.py, lines 133-181). -/
def get_player_teams_across_frames (cl : Classifier) (t1 t2 : String)
    (video_frames : List Frame) (player_tracks : List PlayerEntry)
    (read_from_stub : Bool) (stub_path : Option String)
    (fs : FS (List (List (ℕ × ℕ)))) (st : TAState) :
    Except PyErr (List (List (ℕ × ℕ)) × TAState × FS (List (List (ℕ × ℕ)))) :=
  match read_stub read_from_stub stub_path fs with
  | Except.error e => Except.error e
  | Except.ok (some pa) =>
    if pa.length = video_frames.length then Except.ok (pa, st, fs)
    else teamsCompute cl t1 t2 video_frames player_tracks stub_path fs st
  | Except.ok none =>
    teamsCompute cl t1 t2 video_frames player_tracks stub_path fs st

/-- Processing a frame entry that does not mention `pid` leaves `pid`'s
memo binding and call count unchanged. -/
theorem assignFrame_absent (cl : Classifier) (t1 t2 : String) (frame : Frame) :
    ∀ (pe : PlayerEntry) (st : TAState) (pid : ℕ),
      pid ∉ pe.map Prod.fst →
      (assignFrame cl t1 t2 frame pe st).2.memo.lookup pid =
        st.memo.lookup pid ∧
      (assignFrame cl t1 t2 frame pe st).2.log.count pid =
        st.log.count pid := by
  intro pe
  induction pe with
  | nil => intro st pid _; exact ⟨rfl, rfl⟩
  | cons qb rest ih =>
    intro st pid hpid
    obtain ⟨q, b⟩ := qb
    simp only [List.map_cons, List.mem_cons] at hpid
    push_neg at hpid
    obtain ⟨hqne, hrest⟩ := hpid
    have hbeq : (pid == q) = false := beq_eq_false_iff_ne.2 hqne
    have hbeq2 : (q == pid) = false := beq_eq_false_iff_ne.2 (Ne.symm hqne)
    simp only [assignFrame]
    cases hmemo : st.memo.lookup q with
    | some team =>
      rw [show get_player_team cl t1 t2 frame b q st = (team, st) by
        simp [get_player_team, hmemo]]
      exact ih st pid hrest
    | none =>
      rw [show get_player_team cl t1 t2 frame b q st =
          ((if get_player_color cl t1 t2 frame b = t1 then 1 else 2),
            ⟨(q, if get_player_color cl t1 t2 frame b = t1 then 1 else 2) ::
              st.memo, st.log ++ [q]⟩) by
        simp [get_player_team, hmemo]]
      have hstep := ih ⟨(q, if get_player_color cl t1 t2 frame b = t1
        then 1 else 2) :: st.memo, st.log ++ [q]⟩ pid hrest
      refine ⟨?_, ?_⟩
      · rw [hstep.1]
        simp [List.lookup, hbeq]
      · rw [hstep.2]
        simp [List.count_append, List.count_cons, hbeq, hbeq2]

/-- Processing any frame entry while `pid` is memoized performs no
classifier call for `pid` and keeps it memoized. -/
theorem assignFrame_hit (cl : Classifier) (t1 t2 : String) (frame : Frame) :
    ∀ (pe : PlayerEntry) (st : TAState) (pid : ℕ),
      (st.memo.lookup pid).isSome →
      ((assignFrame cl t1 t2 frame pe st).2.memo.lookup pid).isSome ∧
      (assignFrame cl t1 t2 frame pe st).2.log.count pid =
        st.log.count pid := by
  intro pe
  induction pe with
  | nil => intro st pid h; exact ⟨h, rfl⟩
  | cons qb rest ih =>
    intro st pid hsome
    obtain ⟨q, b⟩ := qb
    simp only [assignFrame]
    cases hmemo : st.memo.lookup q with
    | some team =>
      rw [show get_player_team cl t1 t2 frame b q st = (team, st) by
        simp [get_player_team, hmemo]]
      exact ih st pid hsome
    | none =>
      have hqne : pid ≠ q := by
        intro h
        subst h
        rw [hmemo] at hsome
        cases hsome
      have hbeq : (pid == q) = false := beq_eq_false_iff_ne.2 hqne
      have hbeq2 : (q == pid) = false := beq_eq_false_iff_ne.2 (Ne.symm hqne)
      rw [show get_player_team cl t1 t2 frame b q st =
          ((if get_player_color cl t1 t2 frame b = t1 then 1 else 2),
            ⟨(q, if get_player_color cl t1 t2 frame b = t1 then 1 else 2) ::
              st.memo, st.log ++ [q]⟩) by
        simp [get_player_team, hmemo]]
      have hsome2 : ((⟨(q, if get_player_color cl t1 t2 frame b = t1
          then 1 else 2) :: st.memo, st.log ++ [q]⟩ :
            TAState)).memo.lookup pid |>.isSome := by
        simpa [List.lookup, hbeq] using hsome
      have hstep := ih ⟨(q, if get_player_color cl t1 t2 frame b = t1
        then 1 else 2) :: st.memo, st.log ++ [q]⟩ pid hsome2
      refine ⟨hstep.1, ?_⟩
      rw [hstep.2]
      simp [List.count_append, List.count_cons, hbeq, hbeq2]

/-- Processing a frame entry that mentions `pid` exactly once while `pid`
is not memoized performs exactly one classifier call for `pid` and leaves
it memoized. -/
theorem assignFrame_miss_once (cl : Classifier) (t1 t2 : String)
    (frame : Frame) :
    ∀ (pe : PlayerEntry) (st : TAState) (pid : ℕ),
      st.memo.lookup pid = none → (pe.map Prod.fst).count pid = 1 →
      ((assignFrame cl t1 t2 frame pe st).2.memo.lookup pid).isSome ∧
      (assignFrame cl t1 t2 frame pe st).2.log.count pid =
        st.log.count pid + 1 := by
  intro pe
  induction pe with
  | nil => intro st pid _ hcount; simp at hcount
  | cons qb rest ih =>
    intro st pid hnone hcount
    obtain ⟨q, b⟩ := qb
    simp only [assignFrame]
    by_cases hq : q = pid
    · subst hq
      have hrest : q ∉ rest.map Prod.fst := by
        rw [List.map_cons, List.count_cons] at hcount
        simp at hcount
        rw [← List.count_pos_iff]
        omega
      rw [show get_player_team cl t1 t2 frame b q st =
          ((if get_player_color cl t1 t2 frame b = t1 then 1 else 2),
            ⟨(q, if get_player_color cl t1 t2 frame b = t1 then 1 else 2) ::
              st.memo, st.log ++ [q]⟩) by
        simp [get_player_team, hnone]]
      have hstep := assignFrame_absent cl t1 t2 frame rest
        ⟨(q, if get_player_color cl t1 t2 frame b = t1 then 1 else 2) ::
          st.memo, st.log ++ [q]⟩ q hrest
      refine ⟨?_, ?_⟩
      · rw [hstep.1]
        simp [List.lookup]
      · rw [hstep.2]
        simp [List.count_append, List.count_cons]
    · have hqne : pid ≠ q := fun h => hq h.symm
      have hbeq : (pid == q) = false := beq_eq_false_iff_ne.2 hqne
      have hbeq2 : (q == pid) = false := beq_eq_false_iff_ne.2 (Ne.symm hqne)
      have hrest : (rest.map Prod.fst).count pid = 1 := by
        rw [List.map_cons, List.count_cons] at hcount
        simp [hbeq, hbeq2] at hcount
        omega
      cases hmemo : st.memo.lookup q with
      | some team =>
        rw [show get_player_team cl t1 t2 frame b q st = (team, st) by
          simp [get_player_team, hmemo]]
        exact ih st pid hnone hrest
      | none =>
        rw [show get_player_team cl t1 t2 frame b q st =
            ((if get_player_color cl t1 t2 frame b = t1 then 1 else 2),
              ⟨(q, if get_player_color cl t1 t2 frame b = t1 then 1 else 2)
                :: st.memo, st.log ++ [q]⟩) by
          simp [get_player_team, hmemo]]
        have hnone2 : ((⟨(q, if get_player_color cl t1 t2 frame b = t1
            then 1 else 2) :: st.memo, st.log ++ [q]⟩ :
              TAState)).memo.lookup pid = none := by
          simpa [List.lookup, hbeq] using hnone
        have hstep := ih ⟨(q, if get_player_color cl t1 t2 frame b = t1
          then 1 else 2) :: st.memo, st.log ++ [q]⟩ pid hnone2 hrest
        refine ⟨hstep.1, ?_⟩
        rw [hstep.2]
        simp [List.count_append, List.count_cons, hbeq, hbeq2]

/-- The memo reset at the head of the frame loop never touches the log. -/
theorem teamsGo_reset_log (st : TAState) (n : ℕ) :
    (if n % 50 = 0 then (⟨[], st.log⟩ : TAState) else st).log = st.log := by
  by_cases h : n % 50 = 0 <;> simp [h]

/-- The frame loop splits along an append of the track list. -/
theorem teamsGo_append (cl : Classifier) (t1 t2 : String)
    (vf : List Frame) :
    ∀ (xs ys : List PlayerEntry) (n : ℕ) (st : TAState),
      teamsGo cl t1 t2 vf (xs ++ ys) n st =
        ((teamsGo cl t1 t2 vf xs n st).1 ++
          (teamsGo cl t1 t2 vf ys (n + xs.length)
            (teamsGo cl t1 t2 vf xs n st).2).1,
         (teamsGo cl t1 t2 vf ys (n + xs.length)
            (teamsGo cl t1 t2 vf xs n st).2).2) := by
  intro xs
  induction xs with
  | nil => intro ys n st; simp [teamsGo]
  | cons pt rest ih =>
    intro ys n st
    simp only [List.cons_append, teamsGo, List.length_cons, List.append_eq, ih]
    rw [show n + (rest.length + 1) = n + 1 + rest.length by omega]

/-- A segment of frames that never mentions `pid` performs no classifier
call for `pid`. -/
theorem teamsGo_absent_count (cl : Classifier) (t1 t2 : String)
    (vf : List Frame) :
    ∀ (ts : List PlayerEntry) (n : ℕ) (st : TAState) (pid : ℕ),
      (∀ pe ∈ ts, pid ∉ pe.map Prod.fst) →
      (teamsGo cl t1 t2 vf ts n st).2.log.count pid = st.log.count pid := by
  intro ts
  induction ts with
  | nil => intro n st pid _; rfl
  | cons pt rest ih =>
    intro n st pid habs
    simp only [teamsGo]
    rw [ih (n + 1) _ pid (fun pe hpe => habs pe (List.mem_cons_of_mem _ hpe))]
    rw [(assignFrame_absent cl t1 t2 (vf.getD n 0) pt _ pid
      (habs pt (List.mem_cons_self _ _))).2]
    by_cases h : n % 50 = 0 <;> simp [h]

/-- A segment of frames that never mentions `pid` keeps an unmemoized
`pid` unmemoized. -/
theorem teamsGo_absent_lookup_none (cl : Classifier) (t1 t2 : String)
    (vf : List Frame) :
    ∀ (ts : List PlayerEntry) (n : ℕ) (st : TAState) (pid : ℕ),
      st.memo.lookup pid = none →
      (∀ pe ∈ ts, pid ∉ pe.map Prod.fst) →
      (teamsGo cl t1 t2 vf ts n st).2.memo.lookup pid = none := by
  intro ts
  induction ts with
  | nil => intro n st pid h _; exact h
  | cons pt rest ih =>
    intro n st pid hnone habs
    simp only [teamsGo]
    apply ih (n + 1) _ pid _
      (fun pe hpe => habs pe (List.mem_cons_of_mem _ hpe))
    rw [(assignFrame_absent cl t1 t2 (vf.getD n 0) pt _ pid
      (habs pt (List.mem_cons_self _ _))).1]
    by_cases h : n % 50 = 0 <;> simp [h, hnone]

/-- Without a window boundary in the segment, a memoized `pid` stays
memoized across frames that do not mention it. -/
theorem teamsGo_absent_no_reset (cl : Classifier) (t1 t2 : String)
    (vf : List Frame) :
    ∀ (ts : List PlayerEntry) (n : ℕ) (st : TAState) (pid : ℕ),
      (st.memo.lookup pid).isSome →
      (∀ pe ∈ ts, pid ∉ pe.map Prod.fst) →
      (∀ m, m < ts.length → (n + m) % 50 ≠ 0) →
      ((teamsGo cl t1 t2 vf ts n st).2.memo.lookup pid).isSome := by
  intro ts
  induction ts with
  | nil => intro n st pid h _ _; exact h
  | cons pt rest ih =>
    intro n st pid hsome habs hres
    simp only [teamsGo]
    have h50 : ¬(n % 50 = 0) := by
      have := hres 0 (Nat.succ_pos _)
      simpa using this
    rw [if_neg h50]
    apply ih (n + 1) _ pid _
      (fun pe hpe => habs pe (List.mem_cons_of_mem _ hpe))
      (fun m hm => by
        have := hres (m + 1) (by simpa using Nat.succ_lt_succ hm)
        omega)
    rw [(assignFrame_absent cl t1 t2 (vf.getD n 0) pt st pid
      (habs pt (List.mem_cons_self _ _))).1]
    exact hsome

/-- With a window boundary somewhere in the segment, `pid` ends the
segment unmemoized when the segment never mentions it. -/
theorem teamsGo_absent_reset (cl : Classifier) (t1 t2 : String)
    (vf : List Frame) :
    ∀ (ts : List PlayerEntry) (n : ℕ) (st : TAState) (pid : ℕ),
      (∀ pe ∈ ts, pid ∉ pe.map Prod.fst) →
      (∃ m, m < ts.length ∧ (n + m) % 50 = 0) →
      (teamsGo cl t1 t2 vf ts n st).2.memo.lookup pid = none := by
  intro ts
  induction ts with
  | nil => intro n st pid _ h; rcases h with ⟨m, hm, _⟩; simp at hm
  | cons pt rest ih =>
    intro n st pid habs hex
    by_cases h50 : n % 50 = 0
    · simp only [teamsGo]
      rw [if_pos h50]
      apply teamsGo_absent_lookup_none cl t1 t2 vf rest (n + 1) _ pid _
        (fun pe hpe => habs pe (List.mem_cons_of_mem _ hpe))
      rw [(assignFrame_absent cl t1 t2 (vf.getD n 0) pt _ pid
        (habs pt (List.mem_cons_self _ _))).1]
      rfl
    · simp only [teamsGo]
      rw [if_neg h50]
      apply ih (n + 1) _ pid
        (fun pe hpe => habs pe (List.mem_cons_of_mem _ hpe))
      rcases hex with ⟨m, hm, hm50⟩
      cases m with
      | zero => exact absurd (by simpa using hm50) h50
      | succ m =>
        exact ⟨m, by simpa using Nat.lt_of_succ_lt_succ hm,
          by rw [show n + 1 + m = n + (m + 1) by omega]; exact hm50⟩

/-- Master counting lemma: starting from a fresh assigner, a player
identity sighted at exactly two frames `i < j` is classified once when the
two frames share a 50-frame window and twice when they do not. -/
theorem teamsGo_two_sightings (cl : Classifier) (t1 t2 : String)
    (vf : List Frame) (tracks : List PlayerEntry) (pid i j : ℕ)
    (ti tj : PlayerEntry)
    (hti : tracks[i]? = some ti) (htj : tracks[j]? = some tj) (hij : i < j)
    (hci : (ti.map Prod.fst).count pid = 1)
    (hcj : (tj.map Prod.fst).count pid = 1)
    (habs : ∀ k tk, tracks[k]? = some tk → k ≠ i → k ≠ j →
      pid ∉ tk.map Prod.fst) :
    (teamsGo cl t1 t2 vf tracks 0 ⟨[], []⟩).2.log.count pid =
      (if i / 50 = j / 50 then 1 else 2) := by
  have hjlen : j < tracks.length := by
    rcases Nat.lt_or_ge j tracks.length with h1 | h1
    · exact h1
    · rw [List.getElem?_eq_none h1] at htj; cases htj
  have hilen : i < tracks.length := by omega
  have hAlen : (tracks.take i).length = i := by
    rw [List.length_take]; omega
  have hDlen : (tracks.drop (i + 1)).length = tracks.length - (i + 1) := by
    rw [List.length_drop]
  have hBlen : ((tracks.drop (i + 1)).take (j - i - 1)).length = j - i - 1 := by
    rw [List.length_take]; omega
  have hA : tracks.take i ++ ti :: tracks.drop (i + 1) = tracks := by
    conv_rhs => rw [← List.take_append_drop i tracks]
    congr 1
    rw [List.drop_eq_getElem_cons hilen]
    congr 1
    have hg := List.getElem?_eq_getElem hilen
    rw [hg] at hti
    injection hti with hti'
    exact hti'.symm
  have hDj : (tracks.drop (i + 1))[j - i - 1]? = some tj := by
    rw [List.getElem?_drop, show i + 1 + (j - i - 1) = j by omega]
    exact htj
  have hjD : j - i - 1 < (tracks.drop (i + 1)).length := by omega
  have hD : (tracks.drop (i + 1)).take (j - i - 1) ++
      tj :: (tracks.drop (i + 1)).drop (j - i) = tracks.drop (i + 1) := by
    conv_rhs => rw [← List.take_append_drop (j - i - 1) (tracks.drop (i + 1))]
    congr 1
    rw [List.drop_eq_getElem_cons hjD]
    rw [show j - i - 1 + 1 = j - i by omega]
    congr 1
    have hg := List.getElem?_eq_getElem hjD
    rw [hg] at hDj
    injection hDj with hDj'
    exact hDj'.symm
  have habsA : ∀ pe ∈ tracks.take i, pid ∉ pe.map Prod.fst := by
    intro pe hpe
    rw [List.mem_iff_getElem?] at hpe
    rcases hpe with ⟨m, hm⟩
    have hmlt : m < i := by
      rcases Nat.lt_or_ge m i with h1 | h1
      · exact h1
      · exfalso
        rw [List.getElem?_eq_none (by omega : (tracks.take i).length ≤ m)]
          at hm
        cases hm
    rw [List.getElem?_take_of_lt hmlt] at hm
    exact habs m pe hm (by omega) (by omega)
  have habsB : ∀ pe ∈ (tracks.drop (i + 1)).take (j - i - 1),
      pid ∉ pe.map Prod.fst := by
    intro pe hpe
    rw [List.mem_iff_getElem?] at hpe
    rcases hpe with ⟨m, hm⟩
    have hmlt : m < j - i - 1 := by
      rcases Nat.lt_or_ge m (j - i - 1) with h1 | h1
      · exact h1
      · exfalso
        rw [List.getElem?_eq_none (by omega :
          ((tracks.drop (i + 1)).take (j - i - 1)).length ≤ m)] at hm
        cases hm
    rw [List.getElem?_take_of_lt hmlt, List.getElem?_drop] at hm
    exact habs (i + 1 + m) pe hm (by omega) (by omega)
  have habsC : ∀ pe ∈ (tracks.drop (i + 1)).drop (j - i),
      pid ∉ pe.map Prod.fst := by
    intro pe hpe
    rw [List.mem_iff_getElem?] at hpe
    rcases hpe with ⟨m, hm⟩
    rw [List.getElem?_drop, List.getElem?_drop] at hm
    exact habs (i + 1 + (j - i + m)) pe hm (by omega) (by omega)
  have hrun1 : (teamsGo cl t1 t2 vf tracks 0 ⟨[], []⟩).2 =
      (teamsGo cl t1 t2 vf (ti :: tracks.drop (i + 1)) i
        (teamsGo cl t1 t2 vf (tracks.take i) 0 ⟨[], []⟩).2).2 := by
    conv_lhs => rw [← hA]
    rw [teamsGo_append]
    rw [hAlen]
    simp
  have hcntA : (teamsGo cl t1 t2 vf (tracks.take i) 0
      (⟨[], []⟩ : TAState)).2.log.count pid = 0 := by
    rw [teamsGo_absent_count cl t1 t2 vf _ 0 _ pid habsA]
    rfl
  have hlkA : (teamsGo cl t1 t2 vf (tracks.take i) 0
      (⟨[], []⟩ : TAState)).2.memo.lookup pid = none :=
    teamsGo_absent_lookup_none cl t1 t2 vf _ 0 _ pid rfl habsA
  have hrun2 : (teamsGo cl t1 t2 vf (ti :: tracks.drop (i + 1)) i
      (teamsGo cl t1 t2 vf (tracks.take i) 0 ⟨[], []⟩).2).2 =
      (teamsGo cl t1 t2 vf (tracks.drop (i + 1)) (i + 1)
        ((assignFrame cl t1 t2 (vf.getD i 0) ti
          (if i % 50 = 0 then
            ⟨[], (teamsGo cl t1 t2 vf (tracks.take i) 0 ⟨[], []⟩).2.log⟩
          else (teamsGo cl t1 t2 vf (tracks.take i) 0 ⟨[], []⟩).2)).2)).2 :=
    rfl
  have hlkR : (if i % 50 = 0 then
      (⟨[], (teamsGo cl t1 t2 vf (tracks.take i) 0 ⟨[], []⟩).2.log⟩ : TAState)
      else (teamsGo cl t1 t2 vf (tracks.take i) 0
        ⟨[], []⟩).2).memo.lookup pid = none := by
    by_cases h : i % 50 = 0 <;> simp [h, hlkA]
  have hcntR : (if i % 50 = 0 then
      (⟨[], (teamsGo cl t1 t2 vf (tracks.take i) 0 ⟨[], []⟩).2.log⟩ : TAState)
      else (teamsGo cl t1 t2 vf (tracks.take i) 0
        ⟨[], []⟩).2).log.count pid = 0 := by
    by_cases h : i % 50 = 0 <;> simp [h, hcntA]
  have hsight1 := assignFrame_miss_once cl t1 t2 (vf.getD i 0) ti
    (if i % 50 = 0 then
      ⟨[], (teamsGo cl t1 t2 vf (tracks.take i) 0 ⟨[], []⟩).2.log⟩
    else (teamsGo cl t1 t2 vf (tracks.take i) 0 ⟨[], []⟩).2) pid hlkR hci
  have hrun3 : (teamsGo cl t1 t2 vf (tracks.drop (i + 1)) (i + 1)
      ((assignFrame cl t1 t2 (vf.getD i 0) ti
        (if i % 50 = 0 then
          ⟨[], (teamsGo cl t1 t2 vf (tracks.take i) 0 ⟨[], []⟩).2.log⟩
        else (teamsGo cl t1 t2 vf (tracks.take i) 0 ⟨[], []⟩).2)).2)).2 =
      (teamsGo cl t1 t2 vf (tj :: (tracks.drop (i + 1)).drop (j - i)) j
        (teamsGo cl t1 t2 vf ((tracks.drop (i + 1)).take (j - i - 1)) (i + 1)
          ((assignFrame cl t1 t2 (vf.getD i 0) ti
            (if i % 50 = 0 then
              ⟨[], (teamsGo cl t1 t2 vf (tracks.take i) 0 ⟨[], []⟩).2.log⟩
            else (teamsGo cl t1 t2 vf (tracks.take i) 0
              ⟨[], []⟩).2)).2)).2).2 := by
    conv_lhs => rw [← hD]
    rw [teamsGo_append]
    rw [hBlen, show i + 1 + (j - i - 1) = j by omega]
  rw [hrun1, hrun2, hrun3]
  have hcntB : (teamsGo cl t1 t2 vf ((tracks.drop (i + 1)).take (j - i - 1))
      (i + 1) ((assignFrame cl t1 t2 (vf.getD i 0) ti
        (if i % 50 = 0 then
          ⟨[], (teamsGo cl t1 t2 vf (tracks.take i) 0 ⟨[], []⟩).2.log⟩
        else (teamsGo cl t1 t2 vf (tracks.take i) 0
          ⟨[], []⟩).2)).2)).2.log.count pid = 1 := by
    rw [teamsGo_absent_count cl t1 t2 vf _ (i + 1) _ pid habsB,
      hsight1.2, hcntR]
  by_cases hwin : i / 50 = j / 50
  · rw [if_pos hwin]
    have hj50 : ¬(j % 50 = 0) := by omega
    have hnores : ∀ m, m < ((tracks.drop (i + 1)).take (j - i - 1)).length →
        (i + 1 + m) % 50 ≠ 0 := by
      intro m hm
      rw [hBlen] at hm
      omega
    have hlkB := teamsGo_absent_no_reset cl t1 t2 vf _ (i + 1) _ pid
      hsight1.1 habsB hnores
    simp only [teamsGo]
    rw [if_neg hj50]
    have hsight2 := assignFrame_hit cl t1 t2 (vf.getD j 0) tj _ pid hlkB
    rw [teamsGo_absent_count cl t1 t2 vf _ (j + 1) _ pid habsC,
      hsight2.2, hcntB]
  · rw [if_neg hwin]
    by_cases hj50 : j % 50 = 0
    · simp only [teamsGo]
      rw [if_pos hj50]
      have hsight2 := assignFrame_miss_once cl t1 t2 (vf.getD j 0) tj
        ⟨[], (teamsGo cl t1 t2 vf ((tracks.drop (i + 1)).take (j - i - 1))
          (i + 1) ((assignFrame cl t1 t2 (vf.getD i 0) ti
            (if i % 50 = 0 then
              ⟨[], (teamsGo cl t1 t2 vf (tracks.take i) 0 ⟨[], []⟩).2.log⟩
            else (teamsGo cl t1 t2 vf (tracks.take i) 0
              ⟨[], []⟩).2)).2)).2.log⟩ pid rfl hcj
      rw [teamsGo_absent_count cl t1 t2 vf _ (j + 1) _ pid habsC,
        hsight2.2]
      simp only []
      rw [hcntB]
    · have hdivlt : i / 50 < j / 50 := by omega
      have hlkB : (teamsGo cl t1 t2 vf
          ((tracks.drop (i + 1)).take (j - i - 1)) (i + 1)
          ((assignFrame cl t1 t2 (vf.getD i 0) ti
            (if i % 50 = 0 then
              ⟨[], (teamsGo cl t1 t2 vf (tracks.take i) 0 ⟨[], []⟩).2.log⟩
            else (teamsGo cl t1 t2 vf (tracks.take i) 0
              ⟨[], []⟩).2)).2)).2.memo.lookup pid = none := by
        apply teamsGo_absent_reset cl t1 t2 vf _ (i + 1) _ pid habsB
        refine ⟨50 * (j / 50) - (i + 1), ?_, ?_⟩
        · rw [hBlen]; omega
        · rw [show i + 1 + (50 * (j / 50) - (i + 1)) = 50 * (j / 50) by
            omega]
          omega
      simp only [teamsGo]
      rw [if_neg hj50]
      have hsight2 := assignFrame_miss_once cl t1 t2 (vf.getD j 0) tj _ pid
        hlkB hcj
      rw [teamsGo_absent_count cl t1 t2 vf _ (j + 1) _ pid habsC,
        hsight2.2, hcntB]

/-- C9: on the cache-miss path of `get_player_teams_across_frames`, the
per-identity memo is wiped at every frame index that is a multiple of 50:
an identity sighted at two frames of one 50-frame window is classified
exactly once, while the same identity sighted again across a window
boundary is classified a second time; and each classification maps the
returned label to team 1 exactly when it equals the team-1 description
and to team 2 otherwise. -/
theorem claim_C9_team_memo :
    (∀ (cl : Classifier) (t1 t2 : String) (frame : Frame) (bbox : BBox)
        (pid : ℕ) (st : TAState), st.memo.lookup pid = none →
      (get_player_team cl t1 t2 frame bbox pid st).1 =
        (if get_player_color cl t1 t2 frame bbox = t1 then 1 else 2)) ∧
    (∀ (cl : Classifier) (t1 t2 : String) (vf : List Frame) (p : String)
        (fs : FS (List (List (ℕ × ℕ)))) (tracks : List PlayerEntry)
        (pid i j : ℕ) (ti tj : PlayerEntry),
      tracks[i]? = some ti → tracks[j]? = some tj → i < j →
      (ti.map Prod.fst).count pid = 1 → (tj.map Prod.fst).count pid = 1 →
      (∀ k tk, tracks[k]? = some tk → k ≠ i → k ≠ j →
        pid ∉ tk.map Prod.fst) →
      ∃ res st1 fs1,
        get_player_teams_across_frames cl t1 t2 vf tracks false (some p) fs
            ⟨[], []⟩ = Except.ok (res, st1, fs1) ∧
        st1.log.count pid = (if i / 50 = j / 50 then 1 else 2)) := by
  constructor
  · intro cl t1 t2 frame bbox pid st h
    simp [get_player_team, h]
  · intro cl t1 t2 vf p fs tracks pid i j ti tj hti htj hij hci hcj habs
    have hrun : get_player_teams_across_frames cl t1 t2 vf tracks false
        (some p) fs ⟨[], []⟩ = Except.ok
          ((teamsGo cl t1 t2 vf tracks 0 ⟨[], []⟩).1,
           (teamsGo cl t1 t2 vf tracks 0 ⟨[], []⟩).2,
           (if fs.pathExists (dirname p) then fs
             else fs.mkdir (dirname p)).writeFile p
             (teamsGo cl t1 t2 vf tracks 0 ⟨[], []⟩).1) := by
      simp [get_player_teams_across_frames, read_stub, teamsCompute,
        save_stub]
    exact ⟨_, _, _, hrun, teamsGo_two_sightings cl t1 t2 vf tracks pid i j
      ti tj hti htj hij hci hcj habs⟩

/-- Witness for C9 at a concrete run: identity 7 sighted at frames 0 and 1
(one window) is classified exactly once. -/
theorem claim_C9_team_memo_witness :
    ∃ res st1 fs1,
      get_player_teams_across_frames (fun _ _ => 0) "white shirt"
          "dark blue shirt" [0, 1] [[(7, b00)], [(7, b00)]] false
          (some "stubs/teams.pkl") ⟨[], ["stubs"]⟩ ⟨[], []⟩ =
        Except.ok (res, st1, fs1) ∧
      st1.log.count 7 = (if (0 : ℕ) / 50 = 1 / 50 then 1 else 2) :=
  claim_C9_team_memo.2 (fun _ _ => 0) "white shirt" "dark blue shirt" [0, 1]
    "stubs/teams.pkl" ⟨[], ["stubs"]⟩ [[(7, b00)], [(7, b00)]] 7 0 1
    [(7, b00)] [(7, b00)] rfl rfl (by omega) (by decide) (by decide)
    (by
      intro k tk hk h0 h1
      match k with
      | 0 => exact absurd rfl h0
      | 1 => exact absurd rfl h1
      | (m + 2) => simp at hk)

end Basketball
